import Mathlib

/-!
Verification of the query plan cache and shape-canonicalization core
(`canonical_query.cpp`, `plan_cache.cpp`, `planner_analysis.cpp`,
`hint_commands.cpp`) against its natural-language specification.

The C++ sources are shallowly embedded: match-expression trees become a
nested inductive, the plan cache becomes a state machine over an
association list, and every operation is a pure state transformer.
-/

namespace MongoQuery

/-- `MatchExpression::MatchType` from the match-expression layer.  The
constructor order follows the `switch` table of `encodeMatchType` in
`canonical_query.cpp`, which lists the enum values in declaration order. -/
inductive MatchType where
  | AND | OR | NOR | NOT
  | ALL | ELEM_MATCH_OBJECT | ELEM_MATCH_VALUE | SIZE
  | LTE | LT | EQ | GT | GTE
  | REGEX | MOD | EXISTS | MATCH_IN | NIN
  | TYPE_OPERATOR | GEO | WHERE | ATOMIC | ALWAYS_FALSE
  | GEO_NEAR | TEXT
  deriving DecidableEq, Repr

/-- Numeric value of the `MatchType` enum constant.  Modelled from the spec:
the enum declaration (`expression.h`) is not part of the sources; the values
follow the declaration order used by `encodeMatchType`. -/
def MatchType.val : MatchType → Nat
  | .AND => 0 | .OR => 1 | .NOR => 2 | .NOT => 3
  | .ALL => 4 | .ELEM_MATCH_OBJECT => 5 | .ELEM_MATCH_VALUE => 6 | .SIZE => 7
  | .LTE => 8 | .LT => 9 | .EQ => 10 | .GT => 11 | .GTE => 12
  | .REGEX => 13 | .MOD => 14 | .EXISTS => 15 | .MATCH_IN => 16 | .NIN => 17
  | .TYPE_OPERATOR => 18 | .GEO => 19 | .WHERE => 20 | .ATOMIC => 21
  | .ALWAYS_FALSE => 22 | .GEO_NEAR => 23 | .TEXT => 24

/-- 2-character encoding of `MatchExpression::MatchType`
(`encodeMatchType`, canonical_query.cpp). -/
def encodeMatchType : MatchType → String
  | .AND => "an" | .OR => "or" | .NOR => "nr" | .NOT => "nt"
  | .ALL => "al" | .ELEM_MATCH_OBJECT => "eo" | .ELEM_MATCH_VALUE => "ev"
  | .SIZE => "sz"
  | .LTE => "le" | .LT => "lt" | .EQ => "eq" | .GT => "gt" | .GTE => "ge"
  | .REGEX => "re" | .MOD => "mo" | .EXISTS => "ex" | .MATCH_IN => "in"
  | .NIN => "ni"
  | .TYPE_OPERATOR => "ty" | .GEO => "go" | .WHERE => "wh" | .ATOMIC => "at"
  | .ALWAYS_FALSE => "af"
  | .GEO_NEAR => "gn" | .TEXT => "te"

/-- A `MatchExpression` node: match kind, path, kind-specific payload
(comparison literal, regex flags, ... — opaque bytes, never consulted by
normalization or shape keying), and the ordered children. -/
inductive Expr where
  | node (mt : MatchType) (path : String) (payload : String)
         (children : List Expr)

namespace Expr

/-- `MatchExpression::matchType()`. -/
def mt : Expr → MatchType
  | .node m _ _ _ => m

/-- `MatchExpression::path()`. -/
def path : Expr → String
  | .node _ p _ _ => p

/-- The node's payload bytes. -/
def payload : Expr → String
  | .node _ _ pl _ => pl

/-- `MatchExpression::getChildVector()` contents. -/
def children : Expr → List Expr
  | .node _ _ _ cs => cs

/-- `MatchExpression::numChildren()`. -/
def numChildren (e : Expr) : Nat := e.children.length

/-- Size measure used for structural induction over the nested tree. -/
def size : Expr → Nat
  | .node _ _ _ cs => 1 + sizeList cs
where
  /-- Sum of sizes of a child list. -/
  sizeList : List Expr → Nat
  | [] => 0
  | c :: cs => size c + sizeList cs

theorem size_pos (e : Expr) : 0 < e.size := by
  cases e with
  | node m p pl cs => simp [size]

theorem sizeList_eq (cs : List Expr) :
    Expr.size.sizeList cs = (cs.map Expr.size).sum := by
  induction cs with
  | nil => simp [Expr.size.sizeList]
  | cons c cs ih => simp [Expr.size.sizeList, ih]

theorem size_lt_of_mem {c : Expr} {mt : MatchType} {p pl : String}
    {cs : List Expr} (h : c ∈ cs) : c.size < (Expr.node mt p pl cs).size := by
  have hle : c.size ≤ (cs.map Expr.size).sum := List.le_sum_of_mem (by
    exact List.mem_map_of_mem Expr.size h)
  calc c.size ≤ (cs.map Expr.size).sum := hle
    _ < 1 + (cs.map Expr.size).sum := by omega
    _ = (Expr.node mt p pl cs).size := by simp [Expr.size, sizeList_eq]

/-- Strong induction over the nested tree: to prove `P` for a node it
suffices to have it for each child. -/
theorem inductionOn {P : Expr → Prop}
    (step : ∀ (mt : MatchType) (p pl : String) (cs : List Expr),
      (∀ c ∈ cs, P c) → P (.node mt p pl cs)) : ∀ e, P e := by
  have key : ∀ n e, Expr.size e ≤ n → P e := by
    intro n
    induction n with
    | zero =>
      intro e hle
      exact absurd (size_pos e) (by omega)
    | succ n ih =>
      intro e hle
      cases e with
      | node mt p pl cs =>
        refine step mt p pl cs (fun c hc => ih c ?_)
        have := @size_lt_of_mem c mt p pl cs hc
        omega
  exact fun e => key e.size e le_rfl

/-- Structural (byte-for-byte) equality test on trees. -/
def beq : Expr → Expr → Bool
  | .node m1 p1 l1 cs1, .node m2 p2 l2 cs2 =>
    m1 == m2 && p1 == p2 && l1 == l2 && beqList cs1 cs2
where
  /-- Pointwise structural equality of child lists. -/
  beqList : List Expr → List Expr → Bool
  | [], [] => true
  | a :: as, b :: bs => beq a b && beqList as bs
  | _, _ => false

theorem beq_iff_eq : ∀ a b : Expr, beq a b = true ↔ a = b := by
  intro a
  induction a using inductionOn with
  | step m p pl cs ih =>
    intro b
    cases b with
    | node m2 p2 pl2 cs2 =>
      simp only [beq, Bool.and_eq_true, beq_iff_eq, Expr.node.injEq]
      constructor
      · rintro ⟨⟨⟨h1, h2⟩, h3⟩, h4⟩
        refine ⟨by simpa using h1, by simpa using h2, by simpa using h3, ?_⟩
        clear h1 h2 h3
        induction cs generalizing cs2 with
        | nil => cases cs2 <;> simp_all [beq.beqList]
        | cons c cs ihl =>
          cases cs2 with
          | nil => simp [beq.beqList] at h4
          | cons d ds =>
            simp only [beq.beqList, Bool.and_eq_true] at h4
            have hc := (ih c (by simp) d).mp h4.1
            have hrest := ihl (fun c hc => ih c (by simp [hc])) ds h4.2
            simp [hc, hrest]
      · rintro ⟨h1, h2, h3, h4⟩
        subst h1; subst h2; subst h3; subst h4
        refine ⟨⟨⟨by simp, by simp⟩, by simp⟩, ?_⟩
        induction cs with
        | nil => simp [beq.beqList]
        | cons c cs ihl =>
          simp only [beq.beqList, Bool.and_eq_true]
          exact ⟨(ih c (by simp) c).mpr rfl,
                 ihl (fun c hc => ih c (by simp [hc]))⟩

instance : DecidableEq Expr := fun a b =>
  decidable_of_iff (beq a b = true) (beq_iff_eq a b)

end Expr

/-- Pre-order shape encoding of a match-expression tree
(`encodePlanCacheKeyTree`, canonical_query.cpp): per node the
2-character kind tag followed by the path bytes, then the children in
order.  Payloads are not encoded. -/
def encodeTree : Expr → String
  | .node mt p _ cs => encodeMatchType mt ++ p ++ encodeTreeList cs
where
  /-- Encoding of a child list, in order. -/
  encodeTreeList : List Expr → String
  | [] => ""
  | c :: cs => encodeTree c ++ encodeTreeList cs

/-- The comparison key of `OperatorAndFieldNameComparison`: match-type
enum value, then path bytes, then the subtree shape encoding, ordered
lexicographically. -/
def nodeKey (e : Expr) : Nat ×ₗ (String ×ₗ String) :=
  toLex (e.mt.val, toLex (e.path, encodeTree e))

/-- `OperatorAndFieldNameComparison` (canonical_query.cpp): strict
"less-than" on nodes by (match type, path, subtree cache key). -/
def nodeLT (a b : Expr) : Bool :=
  if a.mt.val ≠ b.mt.val then decide (a.mt.val < b.mt.val)
  else if a.path ≠ b.path then decide (a.path < b.path)
  else decide (encodeTree a < encodeTree b)

/-- Non-strict companion of `nodeLT`: `a` need not come after `b`.
`std::sort` with comparator `lt` produces a sequence whose adjacent pairs
`(x, y)` satisfy `¬ lt y x`, i.e. `nodeLE x y`. -/
def nodeLE (a b : Expr) : Bool := !(nodeLT b a)

theorem nodeLT_iff (a b : Expr) : nodeLT a b = true ↔ nodeKey a < nodeKey b := by
  unfold nodeLT nodeKey
  by_cases h1 : a.mt.val = b.mt.val
  · by_cases h2 : a.path = b.path
    · simp [h1, h2, Prod.Lex.lt_iff]
    · simp [h1, h2, Prod.Lex.lt_iff]
  · simp only [h1, ne_eq, not_false_iff, if_true, decide_eq_true_eq]
    rw [Prod.Lex.lt_iff]
    simp [h1]

theorem nodeLE_iff (a b : Expr) : nodeLE a b = true ↔ nodeKey a ≤ nodeKey b := by
  unfold nodeLE
  rw [Bool.not_eq_true']
  constructor
  · intro h
    by_contra hc
    push_neg at hc
    exact absurd ((nodeLT_iff b a).mpr hc) (by simp [h])
  · intro h
    by_contra hc
    rw [Bool.not_eq_false] at hc
    exact absurd ((nodeLT_iff b a).mp hc) (not_lt_of_le h)

theorem nodeLE_total (a b : Expr) : nodeLE a b = true ∨ nodeLE b a = true := by
  rcases le_total (nodeKey a) (nodeKey b) with h | h
  · exact Or.inl ((nodeLE_iff a b).mpr h)
  · exact Or.inr ((nodeLE_iff b a).mpr h)

theorem nodeLE_trans {a b c : Expr} (h1 : nodeLE a b = true)
    (h2 : nodeLE b c = true) : nodeLE a c = true :=
  (nodeLE_iff a c).mpr (le_trans ((nodeLE_iff a b).mp h1) ((nodeLE_iff b c).mp h2))

/-- Insert a node in front of the first element it is not ordered after. -/
def insertNode (a : Expr) : List Expr → List Expr
  | [] => [a]
  | b :: bs => if nodeLE a b then a :: b :: bs else b :: insertNode a bs

/-- The sibling sort of `CanonicalQuery::sortTree` (`std::sort` with
`OperatorAndFieldNameComparison`), modelled as a stable insertion sort:
the output's adjacent pairs `(x, y)` satisfy `¬ lt y x`, exactly the
postcondition of `std::sort`. -/
def sortNodes : List Expr → List Expr
  | [] => []
  | a :: as => insertNode a (sortNodes as)

/-- Adjacent-pairwise order check: the canonical sibling order. -/
def orderedSiblings : List Expr → Bool
  | [] => true
  | [_] => true
  | a :: b :: rest => nodeLE a b && orderedSiblings (b :: rest)

theorem insertNode_perm (a : Expr) (l : List Expr) :
    (insertNode a l).Perm (a :: l) := by
  induction l with
  | nil => simp [insertNode]
  | cons b bs ih =>
    by_cases h : nodeLE a b = true
    · simp [insertNode, h]
    · simp only [insertNode, h, if_false]
      exact (ih.cons b).trans (List.Perm.swap a b bs)

theorem sortNodes_perm (l : List Expr) : (sortNodes l).Perm l := by
  induction l with
  | nil => simp [sortNodes]
  | cons a as ih =>
    exact (insertNode_perm a (sortNodes as)).trans (ih.cons a)

theorem sortNodes_length (l : List Expr) : (sortNodes l).length = l.length :=
  (sortNodes_perm l).length_eq

theorem mem_of_mem_sortNodes {c : Expr} {l : List Expr}
    (h : c ∈ sortNodes l) : c ∈ l := (sortNodes_perm l).mem_iff.mp h

theorem orderedSiblings_cons {a : Expr} {l : List Expr}
    (hhead : ∀ b ∈ l.head?, nodeLE a b = true)
    (htail : orderedSiblings l = true) : orderedSiblings (a :: l) = true := by
  cases l with
  | nil => simp [orderedSiblings]
  | cons b bs => simp_all [orderedSiblings]

theorem insertNode_sorted {a : Expr} {l : List Expr}
    (h : orderedSiblings l = true) : orderedSiblings (insertNode a l) = true := by
  induction l with
  | nil => simp [insertNode, orderedSiblings]
  | cons b bs ih =>
    by_cases hab : nodeLE a b = true
    · simpa [insertNode, hab, orderedSiblings] using h
    · have hba : nodeLE b a = true := (nodeLE_total a b).resolve_left (by simp [hab])
      have htail : orderedSiblings bs = true := by
        cases bs with
        | nil => simp [orderedSiblings]
        | cons c cs => simp_all [orderedSiblings]
      simp only [insertNode, hab, if_false]
      refine orderedSiblings_cons ?_ (ih htail)
      intro x hx
      cases bs with
      | nil => simp [insertNode] at hx; subst hx; exact hba
      | cons c cs =>
        have hbc : nodeLE b c = true := by simp_all [orderedSiblings]
        by_cases hac : nodeLE a c = true
        · simp [insertNode, hac] at hx; subst hx; exact hba
        · simp only [insertNode, hac, if_false, List.head?] at hx
          simp at hx; subst hx; exact hbc

theorem sortNodes_sorted (l : List Expr) :
    orderedSiblings (sortNodes l) = true := by
  induction l with
  | nil => simp [sortNodes, orderedSiblings]
  | cons a as ih => exact insertNode_sorted ih

theorem insertNode_of_le {a : Expr} {l : List Expr}
    (h : ∀ b ∈ l.head?, nodeLE a b = true) : insertNode a l = a :: l := by
  cases l with
  | nil => simp [insertNode]
  | cons b bs => simp [insertNode, h b (by simp [List.head?])]

theorem sortNodes_of_sorted {l : List Expr}
    (h : orderedSiblings l = true) : sortNodes l = l := by
  induction l with
  | nil => simp [sortNodes]
  | cons a as ih =>
    have htail : orderedSiblings as = true := by
      cases as with
      | nil => simp [orderedSiblings]
      | cons b bs => simp_all [orderedSiblings]
    rw [sortNodes, ih htail]
    refine insertNode_of_le ?_
    intro b hb
    cases as with
    | nil => simp [List.head?] at hb
    | cons c cs =>
      simp only [List.head?, Option.mem_def, Option.some.injEq] at hb
      subst hb
      simp_all [orderedSiblings]

/-- `CanonicalQuery::sortTree` (canonical_query.cpp): post-order pass
sorting every node's children into the canonical sibling order. -/
def sortTree : Expr → Expr
  | .node mt p pl cs => .node mt p pl (sortNodes (sortTreeList cs))
where
  /-- Recursive sorting of each child. -/
  sortTreeList : List Expr → List Expr
  | [] => []
  | c :: cs => sortTree c :: sortTreeList cs

theorem sortTreeList_eq_map (cs : List Expr) :
    sortTree.sortTreeList cs = cs.map sortTree := by
  induction cs with
  | nil => simp [sortTree.sortTreeList]
  | cons c cs ih => simp [sortTree.sortTreeList, ih]

theorem sortTree_mt (e : Expr) : (sortTree e).mt = e.mt := by
  cases e with
  | node mt p pl cs => simp [sortTree, Expr.mt]

theorem sortTree_path (e : Expr) : (sortTree e).path = e.path := by
  cases e with
  | node mt p pl cs => simp [sortTree, Expr.path]

/-- The child vector an `AND`/`OR` node ends up with after the absorb
loop of `CanonicalQuery::normalizeTree`: children whose match type
differs from the parent's keep their relative order; the children of
same-type children are spliced in after them, in order. -/
def newChildrenOf (mt : MatchType) (normed : List Expr) : List Expr :=
  normed.filter (fun c => !(c.mt == mt)) ++
    (normed.filter (fun c => c.mt == mt)).flatMap Expr.children

mutual
/-- Pass A of normalization (`CanonicalQuery::normalizeTree`,
canonical_query.cpp): bottom-up over `AND`/`OR` nodes only (negations
are left alone), absorb same-type children, then collapse a resulting
singleton.  The singleton branch returns the child and frees the node
object it was given. -/
def normalizeTree : Expr → Expr
  | .node mt p pl cs =>
    if mt = .AND ∨ mt = .OR then
      match newChildrenOf mt (normalizeList cs) with
      | [c] => c
      | l => .node mt p pl l
    else .node mt p pl cs

/-- Recursive normalization of each child of an `AND`/`OR` node. -/
def normalizeList : List Expr → List Expr
  | [] => []
  | c :: cs => normalizeTree c :: normalizeList cs
end

/-- `CanonicalQuery::normalize` on the tree: pass A then the sibling
sort (the `isValid` call only inspects the result). -/
def normalize (e : Expr) : Expr := sortTree (normalizeTree e)

theorem normalizeList_eq_map (cs : List Expr) :
    normalizeList cs = cs.map normalizeTree := by
  induction cs with
  | nil => simp [normalizeList]
  | cons c cs ih => simp [normalizeList, ih]

mutual
/-- The flatten/de-singleton invariant guaranteed by pass A: every
`AND`/`OR` node reachable from the root through `AND`/`OR` nodes has
neither a same-type child nor exactly one child.  Nodes of other kinds
are not constrained (pass A never descends into them). -/
def flatOK : Expr → Bool
  | .node mt _ _ cs =>
    if mt = .AND ∨ mt = .OR then
      (cs.length != 1) && flatListOK mt cs
    else true

/-- Child-list side of `flatOK`: no child has the parent's match type,
and each child satisfies `flatOK`. -/
def flatListOK : MatchType → List Expr → Bool
  | _, [] => true
  | mt, c :: cs => !(c.mt == mt) && flatOK c && flatListOK mt cs
end

theorem flatListOK_iff (mt : MatchType) (cs : List Expr) :
    flatListOK mt cs = true ↔ ∀ c ∈ cs, c.mt ≠ mt ∧ flatOK c = true := by
  induction cs with
  | nil => simp [flatListOK]
  | cons c cs ih =>
    simp only [flatListOK, Bool.and_eq_true, ih, List.mem_cons]
    constructor
    · rintro ⟨⟨h1, h2⟩, h3⟩ d hd
      rcases hd with rfl | hd
      · exact ⟨by simpa using h1, h2⟩
      · exact h3 d hd
    · intro h
      refine ⟨⟨by simpa using (h c (by simp)).1, (h c (by simp)).2⟩, ?_⟩
      exact fun d hd => h d (Or.inr hd)

theorem flatOK_and_or {mt : MatchType} (hmt : mt = .AND ∨ mt = .OR)
    (p pl : String) (cs : List Expr) :
    flatOK (.node mt p pl cs) = true ↔
      cs.length ≠ 1 ∧ ∀ c ∈ cs, c.mt ≠ mt ∧ flatOK c = true := by
  simp [flatOK, hmt, flatListOK_iff]

theorem flatOK_other {mt : MatchType} (hmt : ¬(mt = .AND ∨ mt = .OR))
    (p pl : String) (cs : List Expr) :
    flatOK (.node mt p pl cs) = true := by
  simp [flatOK, hmt]

theorem flatOK_normalizeTree : ∀ e : Expr, flatOK (normalizeTree e) = true := by
  intro e
  induction e using Expr.inductionOn with
  | step mt p pl cs ih =>
    by_cases hmt : mt = .AND ∨ mt = .OR
    · have hnormed : ∀ d ∈ normalizeList cs, flatOK d = true := by
        intro d hd
        rw [normalizeList_eq_map] at hd
        obtain ⟨c, hc, rfl⟩ := List.mem_map.mp hd
        exact ih c hc
      have hnew : ∀ x ∈ newChildrenOf mt (normalizeList cs),
          x.mt ≠ mt ∧ flatOK x = true := by
        intro x hx
        rcases List.mem_append.mp hx with hkeep | habs
        · have hcond := List.of_mem_filter hkeep
          have hmem := List.mem_of_mem_filter hkeep
          refine ⟨by simpa using hcond, hnormed x hmem⟩
        · obtain ⟨d, hd, hxd⟩ := List.mem_flatMap.mp habs
          have hdmt : d.mt = mt := by simpa using List.of_mem_filter hd
          have hdOK : flatOK d = true := hnormed d (List.mem_of_mem_filter hd)
          cases d with
          | node dmt dp dpl dcs =>
            have hdmt' : dmt = mt := by simpa [Expr.mt] using hdmt
            subst hdmt'
            have := (flatOK_and_or hmt dp dpl dcs).mp hdOK
            exact this.2 x (by simpa [Expr.children] using hxd)
      rw [normalizeTree]
      simp only [hmt, if_true]
      rcases hsplit : newChildrenOf mt (normalizeList cs) with _ | ⟨c1, _ | ⟨c2, rest⟩⟩
      · exact (flatOK_and_or hmt p pl []).mpr ⟨by simp, by simp⟩
      · exact (hnew c1 (by simp [hsplit])).2
      · refine (flatOK_and_or hmt p pl (c1 :: c2 :: rest)).mpr ⟨by simp, ?_⟩
        intro c hc
        exact hnew c (by rw [hsplit]; exact hc)
    · rw [normalizeTree]
      simp only [hmt, if_false]
      exact flatOK_other hmt p pl cs

theorem normalizeTree_of_flatOK : ∀ e : Expr, flatOK e = true →
    normalizeTree e = e := by
  intro e
  induction e using Expr.inductionOn with
  | step mt p pl cs ih =>
    intro hOK
    by_cases hmt : mt = .AND ∨ mt = .OR
    · obtain ⟨hlen, hkids⟩ := (flatOK_and_or hmt p pl cs).mp hOK
      have hlist : normalizeList cs = cs := by
        rw [normalizeList_eq_map]
        rw [List.map_congr_left (fun c hc => ih c hc (hkids c hc).2)]
        exact List.map_id cs
      have hnew : newChildrenOf mt (normalizeList cs) = cs := by
        rw [hlist]
        unfold newChildrenOf
        have h1 : cs.filter (fun c => !(c.mt == mt)) = cs := by
          apply List.filter_eq_self.mpr
          intro c hc
          simpa using (hkids c hc).1
        have h2 : cs.filter (fun c => c.mt == mt) = [] := by
          apply List.filter_eq_nil_iff.mpr
          intro c hc
          simpa using (hkids c hc).1
        simp [h1, h2]
      rw [normalizeTree]
      simp only [hmt, if_true]
      rw [hnew]
      rcases cs with _ | ⟨c1, _ | ⟨c2, rest⟩⟩
      · rfl
      · simp at hlen
      · rfl
    · rw [normalizeTree]
      simp [hmt]

theorem flatOK_sortTree : ∀ e : Expr, flatOK e = true →
    flatOK (sortTree e) = true := by
  intro e
  induction e using Expr.inductionOn with
  | step mt p pl cs ih =>
    intro hOK
    rw [sortTree, sortTreeList_eq_map]
    by_cases hmt : mt = .AND ∨ mt = .OR
    · obtain ⟨hlen, hkids⟩ := (flatOK_and_or hmt p pl cs).mp hOK
      refine (flatOK_and_or hmt p pl _).mpr ⟨?_, ?_⟩
      · rw [sortNodes_length, List.length_map]
        exact hlen
      · intro x hx
        obtain ⟨c, hc, rfl⟩ := List.mem_map.mp (mem_of_mem_sortNodes hx)
        exact ⟨by rw [sortTree_mt]; exact (hkids c hc).1,
               ih c hc (hkids c hc).2⟩
    · exact flatOK_other hmt p pl _

theorem sortTree_idem : ∀ e : Expr, sortTree (sortTree e) = sortTree e := by
  intro e
  induction e using Expr.inductionOn with
  | step mt p pl cs ih =>
    rw [sortTree, sortTreeList_eq_map]
    rw [sortTree, sortTreeList_eq_map]
    congr 1
    have hfix : ∀ x ∈ sortNodes (cs.map sortTree), sortTree x = x := by
      intro x hx
      obtain ⟨c, hc, rfl⟩ := List.mem_map.mp (mem_of_mem_sortNodes hx)
      exact ih c hc
    rw [List.map_congr_left hfix]
    simp only [List.map_id']
    exact sortNodes_of_sorted (sortNodes_sorted _)

mutual
/-- Every node's children are in the canonical sibling order. -/
def sortedTree : Expr → Bool
  | .node _ _ _ cs => orderedSiblings cs && sortedTreeList cs

/-- `sortedTree` on every element of a child list. -/
def sortedTreeList : List Expr → Bool
  | [] => true
  | c :: cs => sortedTree c && sortedTreeList cs
end

theorem sortedTreeList_iff (cs : List Expr) :
    sortedTreeList cs = true ↔ ∀ c ∈ cs, sortedTree c = true := by
  induction cs with
  | nil => simp [sortedTreeList]
  | cons c cs ih =>
    simp only [sortedTreeList, Bool.and_eq_true, ih, List.mem_cons]
    constructor
    · rintro ⟨h1, h2⟩ d (rfl | hd)
      · exact h1
      · exact h2 d hd
    · intro h
      exact ⟨h c (by simp), fun d hd => h d (Or.inr hd)⟩

theorem sortedTree_sortTree : ∀ e : Expr, sortedTree (sortTree e) = true := by
  intro e
  induction e using Expr.inductionOn with
  | step mt p pl cs ih =>
    rw [sortTree, sortTreeList_eq_map, sortedTree]
    refine Bool.and_eq_true_iff.mpr ⟨sortNodes_sorted _, ?_⟩
    rw [sortedTreeList_iff]
    intro c hc
    obtain ⟨d, hd, rfl⟩ := List.mem_map.mp (mem_of_mem_sortNodes hc)
    exact ih d hd

/-- The four logical match kinds. -/
def isLogical (mt : MatchType) : Bool :=
  mt == .AND || mt == .OR || mt == .NOR || mt == .NOT

mutual
/-- The invariant as the specification states it: no `AND` node has an
`AND` child, no `OR` node has an `OR` child, no logical node (`AND`,
`OR`, `NOR`, `NOT`) has exactly one child, and every node's children
are in the canonical sibling order. -/
def claimedInv : Expr → Bool
  | .node mt _ _ cs =>
    (if mt = .AND then cs.all (fun c => !(c.mt == .AND)) else true) &&
    (if mt = .OR then cs.all (fun c => !(c.mt == .OR)) else true) &&
    (if isLogical mt then cs.length != 1 else true) &&
    orderedSiblings cs &&
    claimedInvList cs

/-- `claimedInv` on every element of a child list. -/
def claimedInvList : List Expr → Bool
  | [] => true
  | c :: cs => claimedInv c && claimedInvList cs
end

/-- Structural agreement up to payloads: same match kinds, same paths,
same arities, payloads (comparison literals, regex flags, ...)
arbitrary.  This is the relation between two queries "differing only in
the concrete constant compared". -/
def skel : Expr → Expr → Bool
  | .node m1 p1 _ cs1, .node m2 p2 _ cs2 =>
    m1 == m2 && p1 == p2 && skelList cs1 cs2
where
  /-- Pointwise `skel` on child lists. -/
  skelList : List Expr → List Expr → Bool
  | [], [] => true
  | a :: as, b :: bs => skel a b && skelList as bs
  | _, _ => false

theorem skel_mt {a b : Expr} (h : skel a b = true) : a.mt = b.mt := by
  cases a with
  | node m1 p1 l1 cs1 =>
    cases b with
    | node m2 p2 l2 cs2 =>
      simp only [skel, Bool.and_eq_true] at h
      simpa [Expr.mt] using h.1.1

theorem skel_path {a b : Expr} (h : skel a b = true) : a.path = b.path := by
  cases a with
  | node m1 p1 l1 cs1 =>
    cases b with
    | node m2 p2 l2 cs2 =>
      simp only [skel, Bool.and_eq_true] at h
      simpa [Expr.path] using h.1.2

theorem skel_children {a b : Expr} (h : skel a b = true) :
    skel.skelList a.children b.children = true := by
  cases a with
  | node m1 p1 l1 cs1 =>
    cases b with
    | node m2 p2 l2 cs2 =>
      simp only [skel, Bool.and_eq_true] at h
      simpa [Expr.children] using h.2

theorem skelList_iff_forall₂ (as bs : List Expr) :
    skel.skelList as bs = true ↔ List.Forall₂ (fun a b => skel a b = true) as bs := by
  induction as generalizing bs with
  | nil => cases bs <;> simp [skel.skelList]
  | cons a as ih =>
    cases bs with
    | nil => simp [skel.skelList]
    | cons b bs =>
      simp [skel.skelList, ih, List.forall₂_cons]

theorem encodeTreeList_eq (cs : List Expr) :
    encodeTree.encodeTreeList cs = (cs.map encodeTree).foldr (· ++ ·) "" := by
  induction cs with
  | nil => simp [encodeTree.encodeTreeList]
  | cons c cs ih => simp [encodeTree.encodeTreeList, ih]

theorem encodeTree_skel : ∀ a b : Expr, skel a b = true →
    encodeTree a = encodeTree b := by
  intro a
  induction a using Expr.inductionOn with
  | step mt p pl cs ih =>
    intro b h
    cases b with
    | node m2 p2 l2 cs2 =>
      simp only [skel, Bool.and_eq_true] at h
      obtain ⟨⟨hm, hp⟩, hcs⟩ := h
      have hm' : mt = m2 := by simpa using hm
      have hp' : p = p2 := by simpa using hp
      subst hm'; subst hp'
      rw [encodeTree, encodeTree]
      congr 1
      rw [skelList_iff_forall₂] at hcs
      induction hcs with
      | nil => rfl
      | cons hab htail ihtail =>
        rename_i x y xs ys
        rw [encodeTree.encodeTreeList, encodeTree.encodeTreeList]
        rw [ih x (by simp) y hab,
            ihtail (fun c hc => ih c (by simp [hc]))]

theorem nodeKey_skel {a b : Expr} (h : skel a b = true) :
    nodeKey a = nodeKey b := by
  unfold nodeKey
  rw [skel_mt h, skel_path h, encodeTree_skel a b h]

theorem nodeLT_congr {a a' b b' : Expr} (ha : skel a a' = true)
    (hb : skel b b' = true) : nodeLT a b = nodeLT a' b' := by
  by_cases h : nodeLT a b = true
  · have := (nodeLT_iff a b).mp h
    rw [nodeKey_skel ha, nodeKey_skel hb] at this
    rw [h, ((nodeLT_iff a' b').mpr this)]
  · rw [Bool.not_eq_true] at h
    rw [h]
    by_contra hc
    have h2 : nodeLT a' b' = true := by
      cases h3 : nodeLT a' b'
      · exact absurd h3 (by simpa [h3] using hc ∘ Eq.symm)
      · rfl
    have := (nodeLT_iff a' b').mp h2
    rw [← nodeKey_skel ha, ← nodeKey_skel hb] at this
    exact absurd ((nodeLT_iff a b).mpr this) (by simp [h])

theorem nodeLE_congr {a a' b b' : Expr} (ha : skel a a' = true)
    (hb : skel b b' = true) : nodeLE a b = nodeLE a' b' := by
  unfold nodeLE
  rw [nodeLT_congr hb ha]

theorem skelList_append {a1 a2 b1 b2 : List Expr}
    (ha : skel.skelList a1 a2 = true) (hb : skel.skelList b1 b2 = true) :
    skel.skelList (a1 ++ b1) (a2 ++ b2) = true := by
  induction a1 generalizing a2 with
  | nil => cases a2 with
    | nil => simpa using hb
    | cons d ds => simp [skel.skelList] at ha
  | cons c cs ih =>
    cases a2 with
    | nil => simp [skel.skelList] at ha
    | cons d ds =>
      simp only [skel.skelList, Bool.and_eq_true] at ha
      simp only [List.cons_append, skel.skelList, Bool.and_eq_true]
      exact ⟨ha.1, ih ha.2⟩

theorem insertNode_congr {a b : Expr} {l1 l2 : List Expr}
    (hab : skel a b = true) (hl : skel.skelList l1 l2 = true) :
    skel.skelList (insertNode a l1) (insertNode b l2) = true := by
  induction l1 generalizing l2 with
  | nil =>
    cases l2 with
    | nil => simp [insertNode, skel.skelList, hab]
    | cons d ds => simp [skel.skelList] at hl
  | cons c cs ih =>
    cases l2 with
    | nil => simp [skel.skelList] at hl
    | cons d ds =>
      simp only [skel.skelList, Bool.and_eq_true] at hl
      obtain ⟨hcd, htail⟩ := hl
      have hle : nodeLE a c = nodeLE b d := nodeLE_congr hab hcd
      by_cases hac : nodeLE a c = true
      · have hbd : nodeLE b d = true := hle ▸ hac
        simp [insertNode, hac, hbd, skel.skelList, hab, hcd, htail]
      · have hac' : nodeLE a c = false := by simpa using hac
        have hbd : nodeLE b d = false := hle ▸ hac'
        simp only [insertNode, hac', hbd, Bool.false_eq_true, if_false]
        simp [skel.skelList, hcd, ih htail]

theorem sortNodes_congr {l1 l2 : List Expr}
    (hl : skel.skelList l1 l2 = true) :
    skel.skelList (sortNodes l1) (sortNodes l2) = true := by
  induction l1 generalizing l2 with
  | nil =>
    cases l2 with
    | nil => simp [sortNodes, skel.skelList]
    | cons d ds => simp [skel.skelList] at hl
  | cons c cs ih =>
    cases l2 with
    | nil => simp [skel.skelList] at hl
    | cons d ds =>
      simp only [skel.skelList, Bool.and_eq_true] at hl
      exact insertNode_congr hl.1 (ih hl.2)

theorem skelList_filter_same {mt : MatchType} {l1 l2 : List Expr}
    (hl : skel.skelList l1 l2 = true) :
    skel.skelList (l1.filter (fun c => c.mt == mt))
      (l2.filter (fun c => c.mt == mt)) = true := by
  induction l1 generalizing l2 with
  | nil =>
    cases l2 with
    | nil => simp [skel.skelList]
    | cons d ds => simp [skel.skelList] at hl
  | cons c cs ih =>
    cases l2 with
    | nil => simp [skel.skelList] at hl
    | cons d ds =>
      simp only [skel.skelList, Bool.and_eq_true] at hl
      obtain ⟨hcd, htail⟩ := hl
      have hmt : c.mt = d.mt := skel_mt hcd
      rw [List.filter_cons, List.filter_cons]
      by_cases h : c.mt = mt
      · have h2 : d.mt = mt := hmt ▸ h
        simp only [h, h2, beq_self_eq_true, if_true]
        simp [skel.skelList, hcd, ih htail]
      · have h2 : ¬ d.mt = mt := fun he => h (hmt ▸ he)
        have hb1 : (c.mt == mt) = false := by simpa using h
        have hb2 : (d.mt == mt) = false := by simpa using h2
        simp only [hb1, hb2, Bool.false_eq_true, if_false]
        exact ih htail

theorem skelList_filter_diff {mt : MatchType} {l1 l2 : List Expr}
    (hl : skel.skelList l1 l2 = true) :
    skel.skelList (l1.filter (fun c => !(c.mt == mt)))
      (l2.filter (fun c => !(c.mt == mt))) = true := by
  induction l1 generalizing l2 with
  | nil =>
    cases l2 with
    | nil => simp [skel.skelList]
    | cons d ds => simp [skel.skelList] at hl
  | cons c cs ih =>
    cases l2 with
    | nil => simp [skel.skelList] at hl
    | cons d ds =>
      simp only [skel.skelList, Bool.and_eq_true] at hl
      obtain ⟨hcd, htail⟩ := hl
      have hmt : c.mt = d.mt := skel_mt hcd
      rw [List.filter_cons, List.filter_cons]
      by_cases h : c.mt = mt
      · have h2 : d.mt = mt := hmt ▸ h
        have hb1 : (!(c.mt == mt)) = false := by simpa using h
        have hb2 : (!(d.mt == mt)) = false := by simpa using h2
        simp only [hb1, hb2, Bool.false_eq_true, if_false]
        exact ih htail
      · have h2 : ¬ d.mt = mt := fun he => h (hmt ▸ he)
        have hb1 : (!(c.mt == mt)) = true := by simpa using h
        have hb2 : (!(d.mt == mt)) = true := by simpa using h2
        simp only [hb1, hb2, if_true]
        simp [skel.skelList, hcd, ih htail]

theorem skelList_flatMap_children {l1 l2 : List Expr}
    (hl : skel.skelList l1 l2 = true) :
    skel.skelList (l1.flatMap Expr.children) (l2.flatMap Expr.children) = true := by
  induction l1 generalizing l2 with
  | nil =>
    cases l2 with
    | nil => simp [skel.skelList]
    | cons d ds => simp [skel.skelList] at hl
  | cons c cs ih =>
    cases l2 with
    | nil => simp [skel.skelList] at hl
    | cons d ds =>
      simp only [skel.skelList, Bool.and_eq_true] at hl
      simp only [List.flatMap_cons]
      exact skelList_append (skel_children hl.1) (ih hl.2)

theorem newChildrenOf_congr {mt : MatchType} {l1 l2 : List Expr}
    (hl : skel.skelList l1 l2 = true) :
    skel.skelList (newChildrenOf mt l1) (newChildrenOf mt l2) = true := by
  unfold newChildrenOf
  exact skelList_append (skelList_filter_diff hl)
    (skelList_flatMap_children (skelList_filter_same hl))

theorem skelList_length {l1 l2 : List Expr}
    (hl : skel.skelList l1 l2 = true) : l1.length = l2.length := by
  rw [skelList_iff_forall₂] at hl
  exact hl.length_eq

theorem normalizeTree_congr : ∀ a b : Expr, skel a b = true →
    skel (normalizeTree a) (normalizeTree b) = true := by
  intro a
  induction a using Expr.inductionOn with
  | step mt p pl cs ih =>
    intro b h
    cases b with
    | node m2 p2 l2 cs2 =>
      simp only [skel, Bool.and_eq_true] at h
      obtain ⟨⟨hm, hp⟩, hcs⟩ := h
      have hm' : mt = m2 := by simpa using hm
      have hp' : p = p2 := by simpa using hp
      subst hm'; subst hp'
      have hnl : skel.skelList (normalizeList cs) (normalizeList cs2) = true := by
        rw [normalizeList_eq_map, normalizeList_eq_map, skelList_iff_forall₂]
        rw [skelList_iff_forall₂] at hcs
        induction hcs with
        | nil => exact List.Forall₂.nil
        | cons hab htail ihtail =>
          rename_i x y xs ys
          exact List.Forall₂.cons (ih x (by simp) y hab)
            (ihtail (fun c hc => ih c (by simp [hc])))
      by_cases hmt : mt = .AND ∨ mt = .OR
      · rw [normalizeTree, normalizeTree]
        simp only [hmt, if_true]
        have hnew := @newChildrenOf_congr mt _ _ hnl
        have hlen := skelList_length hnew
        rcases h1 : newChildrenOf mt (normalizeList cs) with _ | ⟨c1, _ | ⟨c2, r1⟩⟩ <;>
          rcases h2 : newChildrenOf mt (normalizeList cs2) with _ | ⟨d1, _ | ⟨d2, r2⟩⟩ <;>
            rw [h1, h2] at hnew hlen <;> simp_all [skel.skelList, skel]
      · rw [normalizeTree, normalizeTree]
        simp only [hmt, if_false]
        simp [skel, hcs]

theorem sortTree_congr : ∀ a b : Expr, skel a b = true →
    skel (sortTree a) (sortTree b) = true := by
  intro a
  induction a using Expr.inductionOn with
  | step mt p pl cs ih =>
    intro b h
    cases b with
    | node m2 p2 l2 cs2 =>
      simp only [skel, Bool.and_eq_true] at h
      obtain ⟨⟨hm, hp⟩, hcs⟩ := h
      have hm' : mt = m2 := by simpa using hm
      have hp' : p = p2 := by simpa using hp
      subst hm'; subst hp'
      rw [sortTree, sortTree, sortTreeList_eq_map, sortTreeList_eq_map]
      have hmap : skel.skelList (cs.map sortTree) (cs2.map sortTree) = true := by
        rw [skelList_iff_forall₂]
        rw [skelList_iff_forall₂] at hcs
        induction hcs with
        | nil => exact List.Forall₂.nil
        | cons hab htail ihtail =>
          rename_i x y xs ys
          exact List.Forall₂.cons (ih x (by simp) y hab)
            (ihtail (fun c hc => ih c (by simp [hc])))
      simp [skel, sortNodes_congr hmap]

theorem normalize_congr {a b : Expr} (h : skel a b = true) :
    skel (normalize a) (normalize b) = true :=
  sortTree_congr _ _ (normalizeTree_congr a b h)

/-- One field of a (normalized) sort document as consumed by
`encodePlanCacheKeySort`: either the `$meta` text-score marker or a
field with an integer value (`elt.numberInt()`). -/
inductive SortElt where
  | textScoreMeta (field : String)
  | num (field : String) (value : Int)
  deriving DecidableEq

/-- The field name of a sort element. -/
def SortElt.field : SortElt → String
  | .textScoreMeta f => f
  | .num f _ => f

/-- The single character emitted for a sort element: `t` for the
`$meta` text score, `a` when the integer value is `1`, `d` otherwise. -/
def sortEltChar : SortElt → String
  | .textScoreMeta _ => "t"
  | .num _ v => if v = 1 then "a" else "d"

/-- `encodePlanCacheKeySort` (canonical_query.cpp): per sort field, the
direction character followed by the field name. -/
def encodeSort : List SortElt → String
  | [] => ""
  | e :: rest => sortEltChar e ++ e.field ++ encodeSort rest

/-- `encodePlanCacheKeyProj` (canonical_query.cpp): nothing when the
projection is empty; otherwise `p` then, per field, the canonical
rendering of the field's value (`BSONElement::toString(false, false)`,
kept opaque here) followed by the field name.  A projection field is a
pair (field name, value rendering). -/
def encodeProj (l : List (String × String)) : String :=
  if l.isEmpty then "" else "p" ++ encodeProjElts l
where
  /-- The per-field tail of the projection encoding. -/
  encodeProjElts : List (String × String) → String
  | [] => ""
  | fv :: rest => fv.2 ++ fv.1 ++ encodeProjElts rest

/-- `CanonicalQuery::generateCacheKey`: tree, then sort, then
projection appenders, in fixed order, over the normalized root. -/
def planCacheKeyOf (root : Expr) (sort : List SortElt)
    (proj : List (String × String)) : String :=
  encodeTree root ++ encodeSort sort ++ encodeProj proj

/-- The shape key a `CanonicalQuery` ends up with: the parsed filter's
tree is normalized (pass A + sibling sort) before
`generateCacheKey` runs. -/
def canonicalKey (parsedRoot : Expr) (sort : List SortElt)
    (proj : List (String × String)) : String :=
  planCacheKeyOf (normalize parsedRoot) sort proj

theorem encodeSort_append (l1 l2 : List SortElt) :
    encodeSort (l1 ++ l2) = encodeSort l1 ++ encodeSort l2 := by
  induction l1 with
  | nil => simp [encodeSort]
  | cons e rest ih => simp [encodeSort, ih, String.append_assoc]

theorem string_append_right_cancel {s t u : String}
    (h : s ++ u = t ++ u) : s = t := by
  apply String.ext
  have hd : s.data ++ u.data = t.data ++ u.data := by
    rw [← String.data_append, ← String.data_append, h]
  exact List.append_cancel_right hd

theorem string_append_left_cancel {s t u : String}
    (h : u ++ s = u ++ t) : s = t := by
  apply String.ext
  have hd : u.data ++ s.data = u.data ++ t.data := by
    rw [← String.data_append, ← String.data_append, h]
  exact List.append_cancel_left hd

theorem tag_data_length : ∀ mt : MatchType, (encodeMatchType mt).data.length = 2 := by
  intro mt; cases mt <;> rfl

theorem normalize_leaf (mt : MatchType) (pa pl : String) :
    normalize (.node mt pa pl []) = .node mt pa pl [] := by
  cases mt <;> rfl

theorem key_leaf_tag_eq {mt1 mt2 : MatchType} {pa pl1 pl2 : String}
    {sort : List SortElt} {proj : List (String × String)}
    (h : planCacheKeyOf (.node mt1 pa pl1 []) sort proj =
         planCacheKeyOf (.node mt2 pa pl2 []) sort proj) :
    encodeMatchType mt1 = encodeMatchType mt2 := by
  have hd := congrArg String.data h
  simp only [planCacheKeyOf, encodeTree, encodeTree.encodeTreeList,
    String.data_append, List.append_assoc] at hd
  have hlen : (encodeMatchType mt1).data.length =
      (encodeMatchType mt2).data.length := by
    rw [tag_data_length, tag_data_length]
  exact String.ext (List.append_inj hd hlen).1

theorem key_sort_mid_eq {root : Expr} {pre rest : List SortElt}
    {proj : List (String × String)} {x1 x2 : SortElt}
    (h : planCacheKeyOf root (pre ++ x1 :: rest) proj =
         planCacheKeyOf root (pre ++ x2 :: rest) proj) :
    sortEltChar x1 ++ (x1.field ++ (encodeSort rest ++ encodeProj proj)) =
    sortEltChar x2 ++ (x2.field ++ (encodeSort rest ++ encodeProj proj)) := by
  unfold planCacheKeyOf at h
  rw [encodeSort_append, encodeSort_append] at h
  simp only [encodeSort, String.append_assoc] at h
  exact string_append_left_cancel (string_append_left_cancel h)

/-- The five comparison match kinds. -/
def comparisonKinds : List MatchType := [.LTE, .LT, .EQ, .GT, .GTE]

/-- C2: queries over the same collection that differ only in the
concrete constants compared (same shape skeleton) get equal shape keys;
single-comparison queries differing in the comparison operator get
unequal keys; queries differing in one sort field's direction (`1` vs
`-1`) or in one sort field's name get unequal keys. -/
theorem C2_shape_key_equivalence :
    (∀ (t1 t2 : Expr) (sort : List SortElt) (proj : List (String × String)),
      skel t1 t2 = true →
      canonicalKey t1 sort proj = canonicalKey t2 sort proj) ∧
    (∀ (pa pl1 pl2 : String) (mt1 mt2 : MatchType) (sort : List SortElt)
        (proj : List (String × String)),
      mt1 ∈ comparisonKinds → mt2 ∈ comparisonKinds → mt1 ≠ mt2 →
      canonicalKey (.node mt1 pa pl1 []) sort proj ≠
        canonicalKey (.node mt2 pa pl2 []) sort proj) ∧
    (∀ (t : Expr) (proj : List (String × String)) (pre rest : List SortElt)
        (f : String) (d1 d2 : Int),
      (d1 = 1 ∨ d1 = -1) → (d2 = 1 ∨ d2 = -1) → d1 ≠ d2 →
      canonicalKey t (pre ++ .num f d1 :: rest) proj ≠
        canonicalKey t (pre ++ .num f d2 :: rest) proj) ∧
    (∀ (t : Expr) (proj : List (String × String)) (pre rest : List SortElt)
        (f1 f2 : String) (d : Int),
      f1 ≠ f2 →
      canonicalKey t (pre ++ .num f1 d :: rest) proj ≠
        canonicalKey t (pre ++ .num f2 d :: rest) proj) := by
  refine ⟨?_, ?_, ?_, ?_⟩
  · intro t1 t2 sort proj h
    unfold canonicalKey planCacheKeyOf
    rw [encodeTree_skel _ _ (normalize_congr h)]
  · intro pa pl1 pl2 mt1 mt2 sort proj _ _ hne h
    rw [canonicalKey, canonicalKey, normalize_leaf, normalize_leaf] at h
    have htag := key_leaf_tag_eq h
    have : mt1 = mt2 := by
      revert htag
      cases mt1 <;> cases mt2 <;> simp_all <;> decide
    exact hne this
  · intro t proj pre rest f d1 d2 hd1 hd2 hne h
    unfold canonicalKey at h
    have hmid := key_sort_mid_eq h
    have hc : sortEltChar (.num f d1) ≠ sortEltChar (.num f d2) := by
      rcases hd1 with rfl | rfl <;> rcases hd2 with rfl | rfl <;>
        simp_all [sortEltChar]
    have hdata := congrArg String.data hmid
    simp only [String.data_append] at hdata
    have hlen : (sortEltChar (SortElt.num f d1)).data.length =
        (sortEltChar (SortElt.num f d2)).data.length := by
      rcases hd1 with rfl | rfl <;> rcases hd2 with rfl | rfl <;> rfl
    exact hc (String.ext (List.append_inj hdata hlen).1)
  · intro t proj pre rest f1 f2 d hne h
    unfold canonicalKey at h
    have hmid := key_sort_mid_eq h
    simp only [sortEltChar, SortElt.field] at hmid
    have h2 := string_append_left_cancel hmid
    have hdata := congrArg String.data h2
    simp only [String.data_append, ← List.append_assoc] at hdata
    have := List.append_cancel_right (List.append_cancel_right hdata)
    exact hne (String.ext this)

/-- Witness for C2 at concrete queries: `a = 1` vs `a = 2` share a key;
`a = 1` vs `a > 1` do not; sort `a` ascending vs descending differ;
sort by `a` vs by `b` differ. -/
theorem C2_shape_key_equivalence_witness :
    (skel (.node .EQ "a" "1" []) (.node .EQ "a" "2" []) = true ∧
      canonicalKey (.node .EQ "a" "1" []) [] [] =
        canonicalKey (.node .EQ "a" "2" []) [] []) ∧
    canonicalKey (.node .EQ "a" "1" []) [] [] ≠
      canonicalKey (.node .GT "a" "1" []) [] [] ∧
    canonicalKey (.node .EQ "a" "1" []) [.num "a" 1] [] ≠
      canonicalKey (.node .EQ "a" "1" []) [.num "a" (-1)] [] ∧
    canonicalKey (.node .EQ "a" "1" []) [.num "a" 1] [] ≠
      canonicalKey (.node .EQ "a" "1" []) [.num "b" 1] [] := by
  refine ⟨⟨by decide, C2_shape_key_equivalence.1 _ _ [] [] (by decide)⟩, ?_, ?_, ?_⟩
  · exact C2_shape_key_equivalence.2.1 "a" "1" "1" .EQ .GT [] []
      (by decide) (by decide) (by decide)
  · exact C2_shape_key_equivalence.2.2.1 (.node .EQ "a" "1" []) [] [] [] "a" 1 (-1)
      (Or.inl rfl) (Or.inr rfl) (by decide)
  · exact C2_shape_key_equivalence.2.2.2 (.node .EQ "a" "1" []) [] [] [] "a" "b" 1
      (by decide)

/-- C4: the normalization pipeline (flatten/de-singleton, then sibling
sort) is idempotent: applying it twice yields the same tree as once. -/
theorem C4_normalize_idempotent (t : Expr) :
    normalize (normalize t) = normalize t := by
  unfold normalize
  rw [normalizeTree_of_flatOK _ (flatOK_sortTree _ (flatOK_normalizeTree t))]
  exact sortTree_idem _

/-- The parse tree of `{$nor: [{$and: [{$and: [{a:1},{b:1}]},{c:1}]}]}`:
a `NOR` whose single child is an `AND` containing an `AND`.  Pass A of
normalization never descends below the `NOR`. -/
def exprC3 : Expr :=
  .node .NOR "" ""
    [.node .AND "" ""
      [.node .AND "" "" [.node .EQ "a" "1" [], .node .EQ "b" "1" []],
       .node .EQ "c" "1" []]]

/-- C3 counterexample: after normalization of `exprC3` the claimed
invariant fails — the tree still has an `AND` child inside an `AND`,
and the `NOR` (a logical node) has exactly one child. -/
theorem C3_counterexample : claimedInv (normalize exprC3) = false := by decide

/-- C3 (amended): after normalization, every `AND`/`OR` node reachable
from the root through `AND`/`OR` nodes has no same-type child and never
exactly one child (`flatOK`), and every node's children are in the
canonical sibling order; under a negation (`NOR`/`NOT`) the
flatten/de-singleton invariants are not guaranteed because pass A never
descends into negations. -/
theorem C3_normalized_invariants (t : Expr) :
    flatOK (normalize t) = true ∧ sortedTree (normalize t) = true :=
  ⟨flatOK_sortTree _ (flatOK_normalizeTree t), sortedTree_sortTree _⟩

/-- The parse tree of the filter `{$and: [{a: 1}]}`. -/
def exprC5 : Expr := .node .AND "" "" [.node .EQ "a" "1" []]

/-- C5: `CanonicalQuery::init` hands `ParsedProjection::make` the local
`root` pointer obtained from the parser, not `_root.get()`.  On
`{$and:[{a:1}]}` the singleton branch of `normalizeTree` returns the
`EQ` child and deletes the `AND` node that `root` points to, so the
projection is validated against a freed pre-normalization node rather
than the normalized root. -/
theorem C5_projection_uses_stale_root :
    normalizeTree exprC5 = .node .EQ "a" "1" [] ∧
    normalizeTree exprC5 ≠ exprC5 := by
  constructor
  · rfl
  · decide

/-! ## Plan cache (plan_cache.cpp) -/

/-- A BSON document, modelled as its ordered (field name, value bytes)
pairs; the cache only copies documents and tests emptiness. -/
def BSONDoc := List (String × String)
deriving instance DecidableEq for BSONDoc

/-- `BSONObj::isEmpty`. -/
def BSONDoc.isEmpty (d : BSONDoc) : Bool := List.isEmpty d

/-- `LiteParsedQuery`: the raw immutable bundle (the members the plan
cache consults). -/
structure LiteParsedQuery where
  filter : BSONDoc
  sort : BSONDoc
  proj : BSONDoc
  hintDoc : BSONDoc
  minDoc : BSONDoc
  maxDoc : BSONDoc
  deriving DecidableEq

/-- `CanonicalQuery` as the plan cache sees it: the parsed query, the
normalized expression root, and the computed plan cache key. -/
structure CanonicalQuery where
  parsed : LiteParsedQuery
  root : Expr
  cacheKey : String

/-- `IndexEntry` (name, key pattern, multikey flag). -/
structure IndexEntry where
  keyPattern : List (String × Int)
  multikey : Bool
  name : String
  deriving DecidableEq

/-- `PlanCacheIndexTree`: plan nodes optionally bound to an index entry
plus a position, with owned children. -/
inductive PlanCacheIndexTree where
  | node (entry : Option IndexEntry) (index_pos : Nat)
         (children : List PlanCacheIndexTree)

/-- `SolutionCacheData::SolutionType`. -/
inductive SolnType where
  | wholeIXScanSoln | collscanSoln | useIndexTagsSoln
  deriving DecidableEq

/-- `SolutionCacheData`: a compact cloneable description of one plan.
`clone()` is the identity under value semantics. -/
structure SolutionCacheData where
  tree : Option PlanCacheIndexTree
  solnType : SolnType
  wholeIXSolnDir : Int
  adminHintApplied : Bool

/-- The slice of `QuerySolution` consumed by `PlanCache::add`: its
cache data and the blocking-sort flag. -/
structure QuerySolution where
  cacheData : SolutionCacheData
  hasSortStage : Bool

/-- `PlanCacheEntry`: owned by the cache.  `decisionScore` is the
ranker decision's numeric score (`PlanRankingDecision::score`);
feedback scores are the numeric `PlanCacheEntryFeedback::score`
values.  Doubles are modelled as rationals.  `stddevSqScore` stores the
square of the source's `stddevScore` (the sample variance): the square
root of a rational is irrational in general, and every comparison the
source makes against `stddevScore` is reproduced exactly on squares. -/
structure PlanCacheEntry where
  plannerData : List SolutionCacheData
  query : BSONDoc
  sort : BSONDoc
  projection : BSONDoc
  decisionScore : ℚ
  backupSoln : Option Nat
  feedback : List ℚ
  averageScore : Option ℚ
  stddevSqScore : Option ℚ

/-- `CachedSolution`: the deep-cloned snapshot returned by `get`. -/
structure CachedSolution where
  key : String
  plannerData : List SolutionCacheData
  backupSoln : Option Nat
  query : BSONDoc
  sort : BSONDoc
  projection : BSONDoc

/-- Error model: the `Status` codes the plan cache returns. -/
inductive Status where
  | ok
  | badValue
  deriving DecidableEq

/-- Lookup in an association list (`unordered_map::find`). -/
def mapFind (k : String) : List (String × α) → Option α
  | [] => none
  | (k', v) :: rest => if k' = k then some v else mapFind k rest

/-- Insert-or-replace (`unordered_map::operator[] =`). -/
def mapInsert (k : String) (v : α) : List (String × α) → List (String × α)
  | [] => [(k, v)]
  | (k', v') :: rest =>
    if k' = k then (k, v) :: rest else (k', v') :: mapInsert k v rest

/-- Erase by key (`unordered_map::erase`). -/
def mapErase (k : String) : List (String × α) → List (String × α)
  | [] => []
  | (k', v') :: rest =>
    if k' = k then rest else (k', v') :: mapErase k rest

/-- `PlanCache`: the shape-key → entry map plus the write-operation
counter (`_writeOperations`). -/
structure PlanCacheState where
  cache : List (String × PlanCacheEntry)
  writeOperations : Nat

namespace PlanCacheState

/-- A fresh plan cache. -/
def empty : PlanCacheState := ⟨[], 0⟩

/-- `PlanCache::kPlanCacheMaxWriteOperations`. -/
def kPlanCacheMaxWriteOperations : Nat := 1000

/-- `PlanCacheEntry::kMaxFeedback`. -/
def kMaxFeedback : Nat := 20

/-- `PlanCacheEntry::kStdDevThreshold`. -/
def kStdDevThreshold : ℚ := 2

/-- `PlanCache::shouldCacheQuery` (plan_cache.cpp): false for a pure
collection scan (no sort, `AND` root with no children), for hinted
queries, and for min/max queries. -/
def shouldCacheQuery (query : CanonicalQuery) : Bool :=
  if query.parsed.sort.isEmpty && query.root.mt == .AND &&
      query.root.numChildren == 0 then
    false
  else if !query.parsed.hintDoc.isEmpty then
    false
  else if !query.parsed.minDoc.isEmpty then
    false
  else if !query.parsed.maxDoc.isEmpty then
    false
  else
    true

/-- `PlanCache::add`: rejects an empty solution list, otherwise builds
the entry (copying the filter/sort/projection documents and cloning
each solution's cache data), records the first non-blocking-sort
fallback when the winner has a blocking sort, and install-or-replaces
under the query's shape key. -/
def add (st : PlanCacheState) (query : CanonicalQuery)
    (solns : List QuerySolution) (whyScore : ℚ) : Status × PlanCacheState :=
  if solns.isEmpty then
    (.badValue, st)
  else
    let backup : Option Nat :=
      match solns with
      | [] => none
      | s0 :: rest =>
        if s0.hasSortStage then
          ((rest.findIdx? fun s => !s.hasSortStage).map (· + 1))
        else none
    let entry : PlanCacheEntry :=
      { plannerData := solns.map (·.cacheData)
        query := query.parsed.filter
        sort := query.parsed.sort
        projection := query.parsed.proj
        decisionScore := whyScore
        backupSoln := backup
        feedback := []
        averageScore := none
        stddevSqScore := none }
    (.ok, { st with cache := mapInsert query.cacheKey entry st.cache })

/-- `PlanCache::get` (a `const` method): returns a fresh
`CachedSolution` clone, or `BadValue` when the key is absent.  The
state is returned unchanged, mirroring that the method cannot mutate. -/
def get (st : PlanCacheState) (query : CanonicalQuery) :
    Status × Option CachedSolution × PlanCacheState :=
  match mapFind query.cacheKey st.cache with
  | none => (.badValue, none, st)
  | some entry =>
    (.ok, some { key := query.cacheKey
                 plannerData := entry.plannerData
                 backupSoln := entry.backupSoln
                 query := entry.query
                 sort := entry.sort
                 projection := entry.projection }, st)

/-- Mean of the stored feedback scores (`sum / feedback.size()`). -/
def feedbackMean (fb : List ℚ) : ℚ := fb.sum / fb.length

/-- Sample variance of the stored feedback scores:
`sum_of_squares / (N - 1)` — the square of the source's `stddev`. -/
def feedbackSampleVar (fb : List ℚ) : ℚ :=
  ((fb.map fun s => (s - feedbackMean fb) ^ 2).sum) / (fb.length - 1)

/-- The source's test `diff > kStdDevThreshold * stddev`, carried out
on squares: over the reals, `d > 2·√v` (with `v ≥ 0`) iff
`d > 0 ∧ d² > 4·v`. -/
def exceedsThreshold (d vsq : ℚ) : Bool :=
  decide (0 < d) && decide (kStdDevThreshold ^ 2 * vsq < d ^ 2)

/-- `hasCachedPlanPerformanceDegraded` (plan_cache.cpp): on first use
compute mean and sample stddev of the stored scores; evict if the
initial score beats the mean by more than two stddevs (without caching
the stats); otherwise cache the stats and test the latest feedback
against them. -/
def hasCachedPlanPerformanceDegraded (entry : PlanCacheEntry)
    (latestScore : ℚ) : Bool × PlanCacheEntry :=
  match entry.averageScore with
  | none =>
    let mean := feedbackMean entry.feedback
    let vsq := feedbackSampleVar entry.feedback
    if exceedsThreshold (entry.decisionScore - mean) vsq then
      (true, entry)
    else
      let entry' := { entry with averageScore := some mean,
                                 stddevSqScore := some vsq }
      (exceedsThreshold (mean - latestScore) vsq, entry')
  | some avg =>
    (exceedsThreshold (avg - latestScore) (entry.stddevSqScore.getD 0), entry)

/-- `PlanCache::feedback`: `BadValue` on a null feedback object or a
missing entry; append the score while fewer than `kMaxFeedback` scores
are stored; otherwise evaluate degradation and either erase the entry
or keep it (with freshly cached stats) without storing the score. -/
def feedback (st : PlanCacheState) (key : String) (fb : Option ℚ) :
    Status × PlanCacheState :=
  match fb with
  | none => (.badValue, st)
  | some score =>
    match mapFind key st.cache with
    | none => (.badValue, st)
    | some entry =>
      if kMaxFeedback ≤ entry.feedback.length then
        let (degraded, entry') := hasCachedPlanPerformanceDegraded entry score
        if degraded then
          (.ok, { st with cache := mapErase key st.cache })
        else
          (.ok, { st with cache := mapInsert key entry' st.cache })
      else
        let stored := { entry with feedback := entry.feedback ++ [score] }
        (.ok, { st with cache := mapInsert key stored st.cache })

/-- `PlanCache::remove`: `BadValue` when the key is absent, otherwise
delete the entry. -/
def remove (st : PlanCacheState) (key : String) : Status × PlanCacheState :=
  match mapFind key st.cache with
  | none => (.badValue, st)
  | some _ => (.ok, { st with cache := mapErase key st.cache })

/-- `PlanCache::clear`: empty the cache and reset the write counter. -/
def clear (_st : PlanCacheState) : PlanCacheState := ⟨[], 0⟩

/-- `PlanCache::size`. -/
def size (st : PlanCacheState) : Nat := st.cache.length

/-- `PlanCache::notifyOfWriteOp`: increment the counter; return early
while the post-increment value is below the threshold, otherwise
`clear()`. -/
def notifyOfWriteOp (st : PlanCacheState) : PlanCacheState :=
  let wo := st.writeOperations + 1
  if wo < kPlanCacheMaxWriteOperations then
    { st with writeOperations := wo }
  else
    clear { st with writeOperations := wo }

end PlanCacheState

theorem mapFind_insert_self (k : String) (v : α) (l : List (String × α)) :
    mapFind k (mapInsert k v l) = some v := by
  induction l with
  | nil => simp [mapInsert, mapFind]
  | cons kv rest ih =>
    obtain ⟨k', v'⟩ := kv
    by_cases h : k' = k
    · simp [mapInsert, h, mapFind]
    · simp [mapInsert, h, mapFind, ih]

theorem mem_mapInsert {k : String} {v : α} {l : List (String × α)} {kv}
    (h : kv ∈ mapInsert k v l) : kv = (k, v) ∨ kv ∈ l := by
  induction l with
  | nil => simpa [mapInsert] using h
  | cons kv' rest ih =>
    obtain ⟨k', v'⟩ := kv'
    by_cases hk : k' = k
    · simp only [mapInsert, hk, if_true, List.mem_cons] at h
      rcases h with rfl | h
      · exact Or.inl rfl
      · exact Or.inr (List.mem_cons_of_mem _ h)
    · simp only [mapInsert, hk, if_false, List.mem_cons] at h
      rcases h with rfl | h
      · exact Or.inr (List.mem_cons_self _ _)
      · rcases ih h with h' | h'
        · exact Or.inl h'
        · exact Or.inr (List.mem_cons_of_mem _ h')

theorem mem_mapErase {k : String} {l : List (String × α)} {kv}
    (h : kv ∈ mapErase k l) : kv ∈ l := by
  induction l with
  | nil => simp [mapErase] at h
  | cons kv' rest ih =>
    obtain ⟨k', v'⟩ := kv'
    by_cases hk : k' = k
    · simp only [mapErase, hk, if_true] at h
      exact List.mem_cons_of_mem _ h
    · simp only [mapErase, hk, if_false, List.mem_cons] at h
      rcases h with rfl | h
      · exact List.mem_cons_self _ _
      · exact List.mem_cons_of_mem _ (ih h)

/-- C6: `shouldCacheQuery` returns false exactly when the parsed query
is a pure collection scan (empty sort and an `AND` root with zero
children), or has a non-empty hint, min, or max document; otherwise it
returns true. -/
theorem C6_shouldCache_characterization (q : CanonicalQuery) :
    PlanCacheState.shouldCacheQuery q = false ↔
      ((q.parsed.sort.isEmpty = true ∧ q.root.mt = .AND ∧
          q.root.children = []) ∨
        q.parsed.hintDoc.isEmpty = false ∨
        q.parsed.minDoc.isEmpty = false ∨
        q.parsed.maxDoc.isEmpty = false) := by
  unfold PlanCacheState.shouldCacheQuery
  split_ifs with h1 h2 h3 h4 <;>
    simp_all [Expr.numChildren, List.length_eq_zero]

/-- Witness for C6 at a concrete query: the match-all query `{}` with
no sort is not cacheable. -/
theorem C6_shouldCache_characterization_witness :
    PlanCacheState.shouldCacheQuery
      { parsed := ⟨[], [], [], [], [], []⟩,
        root := .node .AND "" "" [], cacheKey := "an" } = false :=
  (C6_shouldCache_characterization _).mpr (Or.inl ⟨rfl, rfl, rfl⟩)

theorem notifyOfWriteOp_small {st : PlanCacheState}
    (h : st.writeOperations + 1 < PlanCacheState.kPlanCacheMaxWriteOperations) :
    st.notifyOfWriteOp = { st with writeOperations := st.writeOperations + 1 } := by
  unfold PlanCacheState.notifyOfWriteOp
  simp [h]

theorem notifyOfWriteOp_iterate (cache : List (String × PlanCacheEntry)) :
    ∀ n, n ≤ PlanCacheState.kPlanCacheMaxWriteOperations - 1 →
      (PlanCacheState.notifyOfWriteOp)^[n] ⟨cache, 0⟩ = ⟨cache, n⟩ := by
  intro n
  induction n with
  | zero => intro _; rfl
  | succ n ih =>
    intro hle
    rw [Function.iterate_succ_apply', ih (by omega),
      notifyOfWriteOp_small (by
        show n + 1 < PlanCacheState.kPlanCacheMaxWriteOperations
        simp only [PlanCacheState.kPlanCacheMaxWriteOperations] at hle ⊢
        omega)]

/-- C7: `notifyOfWriteOp` increments the counter and returns with no
other effect while the post-increment value is strictly below 1000;
once it reaches 1000 it clears the cache and resets the counter;
hence from a fresh counter, 1000 calls leave `size() == 0`. -/
theorem C7_notifyOfWriteOp_flush :
    (∀ st : PlanCacheState,
      st.writeOperations + 1 < PlanCacheState.kPlanCacheMaxWriteOperations →
      st.notifyOfWriteOp = { st with writeOperations := st.writeOperations + 1 }) ∧
    (∀ st : PlanCacheState,
      PlanCacheState.kPlanCacheMaxWriteOperations ≤ st.writeOperations + 1 →
      st.notifyOfWriteOp = ⟨[], 0⟩) ∧
    (∀ cache : List (String × PlanCacheEntry),
      ((PlanCacheState.notifyOfWriteOp)^[PlanCacheState.kPlanCacheMaxWriteOperations]
        ⟨cache, 0⟩).size = 0) := by
  refine ⟨?_, ?_, ?_⟩
  · intro st h
    unfold PlanCacheState.notifyOfWriteOp
    simp [h]
  · intro st h
    unfold PlanCacheState.notifyOfWriteOp PlanCacheState.clear
    simp [Nat.not_lt_of_le h]
  · intro cache
    have h999 : PlanCacheState.kPlanCacheMaxWriteOperations =
        (PlanCacheState.kPlanCacheMaxWriteOperations - 1) + 1 := by
      unfold PlanCacheState.kPlanCacheMaxWriteOperations
      omega
    rw [h999, Function.iterate_succ_apply',
        notifyOfWriteOp_iterate cache _ le_rfl]
    unfold PlanCacheState.notifyOfWriteOp PlanCacheState.clear
    rw [if_neg (by
      show ¬(PlanCacheState.kPlanCacheMaxWriteOperations - 1 + 1 <
        PlanCacheState.kPlanCacheMaxWriteOperations)
      unfold PlanCacheState.kPlanCacheMaxWriteOperations
      omega)]
    rfl

/-- Witness for C7 at concrete states: one write op from a fresh
counter only counts; from counter 999 it flushes a one-entry cache. -/
theorem C7_notifyOfWriteOp_flush_witness :
    ((5 : Nat) + 1 < PlanCacheState.kPlanCacheMaxWriteOperations ∧
      PlanCacheState.notifyOfWriteOp ⟨[], 5⟩ = ⟨[], 6⟩) ∧
    (PlanCacheState.kPlanCacheMaxWriteOperations ≤ (999 : Nat) + 1 ∧
      PlanCacheState.notifyOfWriteOp ⟨[], 999⟩ = ⟨[], 0⟩) := by
  constructor
  · exact ⟨by decide, C7_notifyOfWriteOp_flush.1 ⟨[], 5⟩ (by decide)⟩
  · exact ⟨by decide, C7_notifyOfWriteOp_flush.2.1 ⟨[], 999⟩ (by decide)⟩

/-- C10: every `BadValue`-returning plan cache operation leaves the
cache state exactly as it was: `add` with no solutions, `get` on a
missing key, `remove` on a missing key, `feedback` with a null
feedback object, and `feedback` on a missing key. -/
theorem C10_badValue_frame :
    (∀ (st : PlanCacheState) (q : CanonicalQuery) (score : ℚ),
      st.add q [] score = (.badValue, st)) ∧
    (∀ (st : PlanCacheState) (q : CanonicalQuery),
      mapFind q.cacheKey st.cache = none →
      st.get q = (.badValue, none, st)) ∧
    (∀ (st : PlanCacheState) (k : String),
      mapFind k st.cache = none → st.remove k = (.badValue, st)) ∧
    (∀ (st : PlanCacheState) (k : String),
      st.feedback k none = (.badValue, st)) ∧
    (∀ (st : PlanCacheState) (k : String) (s : ℚ),
      mapFind k st.cache = none → st.feedback k (some s) = (.badValue, st)) := by
  refine ⟨?_, ?_, ?_, ?_, ?_⟩
  · intro st q score
    simp [PlanCacheState.add]
  · intro st q h
    simp [PlanCacheState.get, h]
  · intro st k h
    simp [PlanCacheState.remove, h]
  · intro st k
    simp [PlanCacheState.feedback]
  · intro st k s h
    simp [PlanCacheState.feedback, h]

/-- Witness for C10 on the empty cache. -/
theorem C10_badValue_frame_witness :
    (PlanCacheState.empty.add
        { parsed := ⟨[], [], [], [], [], []⟩, root := .node .AND "" "" [],
          cacheKey := "an" } [] 1 = (.badValue, PlanCacheState.empty)) ∧
    (mapFind "an" PlanCacheState.empty.cache = none ∧
      PlanCacheState.empty.remove "an" = (.badValue, PlanCacheState.empty)) ∧
    (PlanCacheState.empty.feedback "an" none =
      (.badValue, PlanCacheState.empty)) ∧
    (mapFind "an" PlanCacheState.empty.cache = none ∧
      PlanCacheState.empty.feedback "an" (some 1) =
        (.badValue, PlanCacheState.empty)) := by
  refine ⟨C10_badValue_frame.1 _ _ _, ⟨rfl, ?_⟩, C10_badValue_frame.2.2.2.1 _ _,
    ⟨rfl, ?_⟩⟩
  · exact C10_badValue_frame.2.2.1 _ _ rfl
  · exact C10_badValue_frame.2.2.2.2 _ _ _ rfl

theorem mapFind_mem {k : String} {l : List (String × α)} {v : α}
    (h : mapFind k l = some v) : (k, v) ∈ l := by
  induction l with
  | nil => simp [mapFind] at h
  | cons kv rest ih =>
    obtain ⟨k', v'⟩ := kv
    by_cases hk : k' = k
    · subst hk
      simp only [mapFind, if_true] at h
      simp only [Option.some.injEq] at h
      subst h
      exact List.mem_cons_self _ _
    · simp only [mapFind, hk, if_false] at h
      exact List.mem_cons_of_mem _ (ih h)

theorem hasDegraded_keeps_feedback (e : PlanCacheEntry) (s : ℚ) :
    (PlanCacheState.hasCachedPlanPerformanceDegraded e s).2.feedback =
      e.feedback := by
  unfold PlanCacheState.hasCachedPlanPerformanceDegraded
  cases e.averageScore with
  | none =>
    dsimp only
    split_ifs <;> rfl
  | some avg => rfl

/-- No entry stores more than `kMaxFeedback` feedback scores. -/
def feedbackBounded (st : PlanCacheState) : Prop :=
  ∀ kv ∈ st.cache, kv.2.feedback.length ≤ PlanCacheState.kMaxFeedback

/-- C1 (amended): `feedback` appends the incoming score exactly while
fewer than `kMaxFeedback = 20` scores are stored — so the 20th score is
still stored; on arrival of the feedback that would be the 21st (the
entry already holds 20 scores) the incoming score is not stored:
degradation is evaluated instead, computing the mean and the sample
standard deviation over the 20 stored scores (divisor `N - 1 = 19`) and
caching them on the entry the first time the initial check does not
evict; consequently no entry ever holds more than 20 stored scores
(every operation preserves the bound `length ≤ 20`, which holds from
the empty cache). -/
theorem C1_feedback_policy_amended :
    (∀ (st : PlanCacheState) (k : String) (e : PlanCacheEntry) (s : ℚ),
      mapFind k st.cache = some e →
      (e.feedback.length < PlanCacheState.kMaxFeedback →
        st.feedback k (some s) =
          (.ok,
            { st with
              cache := mapInsert k
                { e with feedback := e.feedback ++ [s] }
                st.cache })) ∧
      (PlanCacheState.kMaxFeedback ≤ e.feedback.length →
        (PlanCacheState.hasCachedPlanPerformanceDegraded e s).2.feedback =
            e.feedback ∧
        st.feedback k (some s) =
          (.ok,
            if (PlanCacheState.hasCachedPlanPerformanceDegraded e s).1 then
              { st with cache := mapErase k st.cache }
            else
              { st with
                cache := mapInsert k
                  (PlanCacheState.hasCachedPlanPerformanceDegraded e s).2
                  st.cache })) ∧
      (PlanCacheState.kMaxFeedback ≤ e.feedback.length →
        e.averageScore = none →
        PlanCacheState.exceedsThreshold
            (e.decisionScore - PlanCacheState.feedbackMean e.feedback)
            (PlanCacheState.feedbackSampleVar e.feedback) = false →
        (PlanCacheState.hasCachedPlanPerformanceDegraded e s).2.averageScore =
            some (PlanCacheState.feedbackMean e.feedback) ∧
        (PlanCacheState.hasCachedPlanPerformanceDegraded e s).2.stddevSqScore =
            some (PlanCacheState.feedbackSampleVar e.feedback))) ∧
    feedbackBounded PlanCacheState.empty ∧
    (∀ (st : PlanCacheState) (q : CanonicalQuery)
        (solns : List QuerySolution) (score : ℚ),
      feedbackBounded st → feedbackBounded (st.add q solns score).2) ∧
    (∀ (st : PlanCacheState) (k : String) (fb : Option ℚ),
      feedbackBounded st → feedbackBounded (st.feedback k fb).2) ∧
    (∀ (st : PlanCacheState) (k : String),
      feedbackBounded st → feedbackBounded (st.remove k).2) ∧
    (∀ st : PlanCacheState,
      feedbackBounded st → feedbackBounded st.notifyOfWriteOp) ∧
    (∀ st : PlanCacheState, feedbackBounded st.clear) := by
  refine ⟨?_, ?_, ?_, ?_, ?_, ?_, ?_⟩
  · intro st k e s hfind
    refine ⟨?_, ?_, ?_⟩
    · intro hlt
      simp [PlanCacheState.feedback, hfind, Nat.not_le.mpr hlt]
    · intro hge
      refine ⟨hasDegraded_keeps_feedback e s, ?_⟩
      simp only [PlanCacheState.feedback, hfind, hge, if_true]
      by_cases hdeg :
          (PlanCacheState.hasCachedPlanPerformanceDegraded e s).1 = true
      · simp [hdeg]
      · simp only [Bool.not_eq_true] at hdeg
        simp [hdeg]
    · intro hge hav hnot
      unfold PlanCacheState.hasCachedPlanPerformanceDegraded
      rw [hav]
      simp [hnot]
  · intro kv hkv
    simp [PlanCacheState.empty] at hkv
  · intro st q solns score hB kv hkv
    unfold PlanCacheState.add at hkv
    by_cases hempty : solns.isEmpty = true
    · simp only [hempty, if_true] at hkv
      exact hB kv hkv
    · simp only [hempty, Bool.false_eq_true, if_false] at hkv
      rcases mem_mapInsert hkv with rfl | hmem
      · simp [PlanCacheState.kMaxFeedback]
      · exact hB kv hmem
  · intro st k fb hB kv hkv
    unfold PlanCacheState.feedback at hkv
    match fb with
    | none => exact hB kv hkv
    | some s =>
      simp only [] at hkv
      cases hfind : mapFind k st.cache with
      | none =>
        rw [hfind] at hkv
        exact hB kv hkv
      | some e =>
        rw [hfind] at hkv
        have heB : e.feedback.length ≤ PlanCacheState.kMaxFeedback :=
          hB (k, e) (mapFind_mem hfind)
        by_cases hge : PlanCacheState.kMaxFeedback ≤ e.feedback.length
        · simp only [hge, if_true] at hkv
          by_cases hdeg :
              (PlanCacheState.hasCachedPlanPerformanceDegraded e s).1 = true
          · simp only [hdeg, if_true] at hkv
            exact hB kv (mem_mapErase hkv)
          · simp only [Bool.not_eq_true] at hdeg
            simp only [hdeg, Bool.false_eq_true, if_false] at hkv
            rcases mem_mapInsert hkv with rfl | hmem
            · simpa [hasDegraded_keeps_feedback] using heB
            · exact hB kv hmem
        · simp only [hge, if_false] at hkv
          rcases mem_mapInsert hkv with rfl | hmem
          · simp only [List.length_append, List.length_cons,
              List.length_nil]
            omega
          · exact hB kv hmem
  · intro st k hB kv hkv
    unfold PlanCacheState.remove at hkv
    cases hfind : mapFind k st.cache with
    | none =>
      rw [hfind] at hkv
      exact hB kv hkv
    | some e =>
      rw [hfind] at hkv
      exact hB kv (mem_mapErase hkv)
  · intro st hB kv hkv
    unfold PlanCacheState.notifyOfWriteOp at hkv
    by_cases h : st.writeOperations + 1 <
        PlanCacheState.kPlanCacheMaxWriteOperations
    · simp only [h, if_true] at hkv
      exact hB kv hkv
    · simp only [h, if_false] at hkv
      simp [PlanCacheState.clear] at hkv
  · intro st kv hkv
    simp [PlanCacheState.clear] at hkv

/-- A concrete canonical query (`{a: 1}`, shape key `eqa`). -/
def cqC1 : CanonicalQuery :=
  { parsed := ⟨[("a", "1")], [], [], [], [], []⟩
    root := .node .EQ "a" "1" []
    cacheKey := "eqa" }

/-- A concrete solution with no blocking sort. -/
def solnC1 : QuerySolution :=
  { cacheData :=
      { tree := none, solnType := .collscanSoln, wholeIXSolnDir := 1,
        adminHintApplied := false }
    hasSortStage := false }

/-- One feedback delivery of score 1 for shape `eqa`. -/
def feedStep (st : PlanCacheState) : PlanCacheState :=
  (st.feedback "eqa" (some 1)).2

/-- C1 counterexample: install an entry and deliver 20 feedbacks; the
entry then stores exactly 20 scores — the 20th feedback was stored, and
the entry holds `kMaxFeedback` scores, contradicting "never 20 or
more". -/
theorem C1_counterexample :
    ((mapFind "eqa"
        ((feedStep^[20]) (PlanCacheState.empty.add cqC1 [solnC1] 1).2).cache).map
      fun e => e.feedback.length) = some 20 := by
  rfl

/-- The cache entry `add cqC1 [solnC1] 1` installs. -/
def entryC1 : PlanCacheEntry :=
  { plannerData := [solnC1.cacheData]
    query := [("a", "1")]
    sort := []
    projection := []
    decisionScore := 1
    backupSoln := none
    feedback := []
    averageScore := none
    stddevSqScore := none }

/-- Witness for C1 (amended) at a concrete state: the first feedback
for a fresh entry is appended. -/
theorem C1_feedback_policy_amended_witness :
    mapFind "eqa" (PlanCacheState.empty.add cqC1 [solnC1] 1).2.cache =
        some entryC1 ∧
    entryC1.feedback.length < PlanCacheState.kMaxFeedback ∧
    (PlanCacheState.empty.add cqC1 [solnC1] 1).2.feedback "eqa" (some 1) =
      (.ok,
        { (PlanCacheState.empty.add cqC1 [solnC1] 1).2 with
          cache := mapInsert "eqa"
            { entryC1 with feedback := entryC1.feedback ++ [1] }
            (PlanCacheState.empty.add cqC1 [solnC1] 1).2.cache }) := by
  have hfind : mapFind "eqa" (PlanCacheState.empty.add cqC1 [solnC1] 1).2.cache =
      some entryC1 := rfl
  have hlen : entryC1.feedback.length < PlanCacheState.kMaxFeedback := by
    simp [entryC1, PlanCacheState.kMaxFeedback]
  refine ⟨hfind, hlen, ?_⟩
  exact ((C1_feedback_policy_amended.1
    (PlanCacheState.empty.add cqC1 [solnC1] 1).2 "eqa" entryC1 1 hfind).1 hlen)

/-! ## Explode for sort (planner_analysis.cpp) -/

/-- An `Interval` of index bounds.  `isPoint` is modelled from the
spec (glossary: a point interval is a closed interval whose lower and
upper endpoints coincide); `Interval`'s own code (index_bounds.cpp) is
not among the sources.  Endpoint values are opaque integers. -/
structure Interval where
  startVal : Int
  endVal : Int
  startInclusive : Bool
  endInclusive : Bool
  deriving DecidableEq

/-- `Interval::isPoint`. -/
def Interval.isPoint (i : Interval) : Bool :=
  i.startInclusive && i.endInclusive && i.startVal == i.endVal

/-- `OrderedIntervalList`: the per-field interval list. -/
structure OrderedIntervalList where
  name : String
  intervals : List Interval
  deriving DecidableEq

/-- `isUnionOfPoints` (planner_analysis.cpp). -/
def isUnionOfPoints (oil : OrderedIntervalList) : Bool :=
  oil.intervals.all Interval.isPoint

/-- `IndexBounds`: per-field interval lists plus the simple-range
flag. -/
structure IndexBounds where
  fields : List OrderedIntervalList
  isSimpleRange : Bool
  deriving DecidableEq

/-- `IndexScanNode`: the fields `explodeForSort`/`explodeScan` read
and copy.  The key pattern is the ordered (field, direction) list. -/
structure IndexScanNode where
  indexKeyPattern : List (String × Int)
  bounds : IndexBounds
  direction : Int
  maxScan : Nat
  addKeyMetadata : Bool
  indexIsMultiKey : Bool
  deriving DecidableEq

/-- The plan-tree nodes `explodeForSort` distinguishes: an index scan,
a fetch (single child), the merge-sort it builds, and any other stage
(with children), which it rejects. -/
inductive QSN where
  | ixscan (isn : IndexScanNode)
  | fetch (child : QSN)
  | mergeSort (sort : List (String × Int)) (children : List QSN)
  | otherStage (children : List QSN)

/-- `structureOKForExplode` (planner_analysis.cpp): only an `IXSCAN`
root or a `FETCH` whose child is an `IXSCAN` qualifies. -/
def structureOKForExplode : QSN → Bool
  | .ixscan _ => true
  | .fetch (.ixscan _) => true
  | _ => false

/-- The single leaf index scan examined when the structure check
passes. -/
def theIndexScan : QSN → Option IndexScanNode
  | .ixscan isn => some isn
  | .fetch (.ixscan isn) => some isn
  | _ => none

/-- The point-prefix walk of `explodeForSort`: skip every leading key
pattern field whose bounds are a union of points, multiplying the
interval counts into `numScans`; return
`(numScans, fieldsToExplode, remaining key pattern suffix)`.
The source indexes `bounds.fields[boundsIdx]` in lockstep with the key
pattern; a key pattern longer than `bounds.fields` (out-of-bounds in
C++) is treated as ending the walk. -/
def pointPrefixWalk : List (String × Int) → List OrderedIntervalList →
    Nat × Nat × List (String × Int)
  | [], _ => (1, 0, [])
  | kp :: kps, [] => (1, 0, kp :: kps)
  | kp :: kps, oil :: oils =>
    if isUnionOfPoints oil then
      let (n, k, suffix) := pointPrefixWalk kps oils
      (oil.intervals.length * n, k + 1, suffix)
    else
      (1, 0, kp :: kps)

/-- `QueryPlannerAnalysis::kMaxScansToExplode`. -/
def kMaxScansToExplode : Nat := 50

/-- One step of `makeCartesianProduct`'s subsequent-field loop: for
each point interval of the field (outer loop), append it to every
existing prefix (inner loop). -/
def cartesianStep (prefixes : List (List Interval))
    (oil : OrderedIntervalList) : List (List Interval) :=
  oil.intervals.flatMap fun ival => prefixes.map fun p => p ++ [ival]

/-- `makeCartesianProduct` (planner_analysis.cpp): the prefixes start
as the first field's points; each further exploded field multiplies
them. -/
def makeCartesianProduct (fields : List OrderedIntervalList)
    (fieldsToExplode : Nat) : List (List Interval) :=
  match fields, fieldsToExplode with
  | _, 0 => []
  | [], _ => []
  | f0 :: rest, k + 1 =>
    (rest.take k).foldl cartesianStep (f0.intervals.map fun i => [i])

/-- The child bounds of one exploded scan: the first `fieldsToExplode`
fields become singleton point intervals (keeping their names), the
suffix fields are copied unchanged. -/
def explodedFields : List OrderedIntervalList → List Interval →
    List OrderedIntervalList
  | fs, [] => fs
  | [], _ => []
  | f :: fs, i :: is =>
    { name := f.name, intervals := [i] } :: explodedFields fs is

/-- `explodeScan` (planner_analysis.cpp): a `MERGE_SORT` over one clone
of the scan per point-prefix tuple, with the boring fields copied and
the first `fieldsToExplode` fields' bounds set to that tuple.  The
fresh child bounds leave `isSimpleRange` at its default (false). -/
def explodeScan (isn : IndexScanNode) (sort : List (String × Int))
    (fieldsToExplode : Nat) : QSN :=
  .mergeSort sort
    ((makeCartesianProduct isn.bounds.fields fieldsToExplode).map fun pfix =>
      .ixscan
        { indexKeyPattern := isn.indexKeyPattern
          bounds := { fields := explodedFields isn.bounds.fields pfix
                      isSimpleRange := false }
          direction := isn.direction
          maxScan := isn.maxScan
          addKeyMetadata := isn.addKeyMetadata
          indexIsMultiKey := isn.indexIsMultiKey })

/-- The per-leaf eligibility checks of `explodeForSort`: reject a
simple-range scan; walk the point prefix; reject when no key pattern
suffix remains; reject when the suffix differs from the desired sort
(`woCompare != 0`).  Returns `(numScans, fieldsToExplode)` on
success. -/
def explodeLeafCheck (isn : IndexScanNode)
    (desiredSort : List (String × Int)) : Option (Nat × Nat) :=
  if isn.bounds.isSimpleRange then
    none
  else
    let (n, k, suffix) := pointPrefixWalk isn.indexKeyPattern isn.bounds.fields
    if suffix.isEmpty then
      none
    else if suffix ≠ desiredSort then
      none
    else
      some (n, k)

/-- `QueryPlannerAnalysis::explodeForSort` (planner_analysis.cpp):
returns `(false, unchanged tree)` when the structure check fails, when
a leaf check fails, or when the total scan count after explosion would
exceed `kMaxScansToExplode`; otherwise replaces the scan with the
merge-sort of exploded scans (re-wrapped under the `FETCH` when one
was present). -/
def explodeForSort (desiredSort : List (String × Int)) (root : QSN) :
    Bool × QSN :=
  match root with
  | .ixscan isn =>
    match explodeLeafCheck isn desiredSort with
    | none => (false, root)
    | some (n, k) =>
      if kMaxScansToExplode < n then (false, root)
      else (true, explodeScan isn desiredSort k)
  | .fetch (.ixscan isn) =>
    match explodeLeafCheck isn desiredSort with
    | none => (false, root)
    | some (n, k) =>
      if kMaxScansToExplode < n then (false, root)
      else (true, .fetch (explodeScan isn desiredSort k))
  | _ => (false, root)

theorem explodeLeafCheck_simpleRange {isn : IndexScanNode}
    {sort : List (String × Int)} (h : isn.bounds.isSimpleRange = true) :
    explodeLeafCheck isn sort = none := by
  unfold explodeLeafCheck
  simp [h]

theorem explodeLeafCheck_suffix {isn : IndexScanNode}
    {sort : List (String × Int)}
    (h : (pointPrefixWalk isn.indexKeyPattern isn.bounds.fields).2.2 ≠ sort) :
    explodeLeafCheck isn sort = none := by
  unfold explodeLeafCheck
  by_cases hsr : isn.bounds.isSimpleRange = true
  · simp [hsr]
  · rcases hw : pointPrefixWalk isn.indexKeyPattern isn.bounds.fields with
      ⟨n0, k0, suffix0⟩
    rw [hw] at h
    simp only [Bool.not_eq_true] at hsr
    simp only [hsr, Bool.false_eq_true, if_false, hw]
    by_cases he : suffix0.isEmpty = true
    · simp [he]
    · simp only [he, Bool.false_eq_true, if_false]
      simp_all

theorem explodeLeafCheck_numScans {isn : IndexScanNode}
    {sort : List (String × Int)} {n k : Nat}
    (h : explodeLeafCheck isn sort = some (n, k)) :
    n = (pointPrefixWalk isn.indexKeyPattern isn.bounds.fields).1 := by
  unfold explodeLeafCheck at h
  by_cases hsr : isn.bounds.isSimpleRange = true
  · simp [hsr] at h
  · rcases hw : pointPrefixWalk isn.indexKeyPattern isn.bounds.fields with
      ⟨n0, k0, suffix0⟩
    simp only [Bool.not_eq_true] at hsr
    rw [hw] at h
    simp only [hsr, Bool.false_eq_true, if_false] at h
    by_cases he : suffix0.isEmpty = true
    · simp [he] at h
    · simp only [he, Bool.false_eq_true, if_false] at h
      by_cases hne : suffix0 ≠ sort
      · simp [hne] at h
      · simp only [hne, if_false] at h
        simp only [Option.some.injEq, Prod.mk.injEq] at h
        exact h.1.symm

theorem explodeForSort_ixscan (sort : List (String × Int))
    (isn : IndexScanNode) :
    explodeForSort sort (.ixscan isn) =
      (match explodeLeafCheck isn sort with
       | none => (false, QSN.ixscan isn)
       | some (n, k) =>
         if kMaxScansToExplode < n then (false, QSN.ixscan isn)
         else (true, explodeScan isn sort k)) := rfl

theorem explodeForSort_fetch_ixscan (sort : List (String × Int))
    (isn : IndexScanNode) :
    explodeForSort sort (.fetch (.ixscan isn)) =
      (match explodeLeafCheck isn sort with
       | none => (false, QSN.fetch (.ixscan isn))
       | some (n, k) =>
         if kMaxScansToExplode < n then (false, QSN.fetch (.ixscan isn))
         else (true, QSN.fetch (explodeScan isn sort k))) := rfl

/-- C8: `explodeForSort` returns false and leaves the plan tree
unchanged on every eligibility failure: whenever the root is neither an
`IXSCAN` nor a `FETCH` over an `IXSCAN`, whenever the examined scan has
simple-range bounds, whenever the key pattern suffix after the
point-prefix fields differs from the desired sort, and whenever the
post-explosion scan count would exceed `kMaxScansToExplode = 50`. -/
theorem C8_explode_frame (sort : List (String × Int)) (root : QSN) :
    ((explodeForSort sort root).1 = false → (explodeForSort sort root).2 = root) ∧
    (structureOKForExplode root = false → (explodeForSort sort root).1 = false) ∧
    (∀ isn, theIndexScan root = some isn →
      (isn.bounds.isSimpleRange = true →
        (explodeForSort sort root).1 = false) ∧
      ((pointPrefixWalk isn.indexKeyPattern isn.bounds.fields).2.2 ≠ sort →
        (explodeForSort sort root).1 = false) ∧
      (kMaxScansToExplode <
          (pointPrefixWalk isn.indexKeyPattern isn.bounds.fields).1 →
        (explodeForSort sort root).1 = false)) := by
  rcases root with isn | child | ⟨s, cs⟩ | cs
  case ixscan =>
    refine ⟨?_, ?_, ?_⟩
    · intro h
      rcases hc : explodeLeafCheck isn sort with _ | ⟨n, k⟩
      · have heq := explodeForSort_ixscan sort isn
        rw [hc] at heq
        simp [heq]
      · have heq := explodeForSort_ixscan sort isn
        rw [hc] at heq
        by_cases hn : kMaxScansToExplode < n
        · rw [heq]
          simp [hn]
        · rw [heq] at h
          simp [hn] at h
    · intro h
      simp [structureOKForExplode] at h
    · intro isn2 hisn2
      simp only [theIndexScan, Option.some.injEq] at hisn2
      subst hisn2
      have heq := explodeForSort_ixscan sort isn
      rcases hc : explodeLeafCheck isn sort with _ | ⟨n, k⟩
      all_goals rw [hc] at heq
      · refine ⟨fun _ => ?_, fun _ => ?_, fun _ => ?_⟩ <;> simp [heq]
      · refine ⟨?_, ?_, ?_⟩
        · intro h
          rw [explodeLeafCheck_simpleRange h] at hc
          exact absurd hc (by simp)
        · intro h
          rw [explodeLeafCheck_suffix h] at hc
          exact absurd hc (by simp)
        · intro h
          rw [← explodeLeafCheck_numScans hc] at h
          rw [heq]
          simp [h]
  case fetch =>
    rcases child with isn | c2 | ⟨s2, cs2⟩ | cs2
    case ixscan =>
      refine ⟨?_, ?_, ?_⟩
      · intro h
        rcases hc : explodeLeafCheck isn sort with _ | ⟨n, k⟩
        · have heq := explodeForSort_fetch_ixscan sort isn
          rw [hc] at heq
          simp [heq]
        · have heq := explodeForSort_fetch_ixscan sort isn
          rw [hc] at heq
          by_cases hn : kMaxScansToExplode < n
          · rw [heq]
            simp [hn]
          · rw [heq] at h
            simp [hn] at h
      · intro h
        simp [structureOKForExplode] at h
      · intro isn2 hisn2
        simp only [theIndexScan, Option.some.injEq] at hisn2
        subst hisn2
        have heq := explodeForSort_fetch_ixscan sort isn
        rcases hc : explodeLeafCheck isn sort with _ | ⟨n, k⟩
        all_goals rw [hc] at heq
        · refine ⟨fun _ => ?_, fun _ => ?_, fun _ => ?_⟩ <;> simp [heq]
        · refine ⟨?_, ?_, ?_⟩
          · intro h
            rw [explodeLeafCheck_simpleRange h] at hc
            exact absurd hc (by simp)
          · intro h
            rw [explodeLeafCheck_suffix h] at hc
            exact absurd hc (by simp)
          · intro h
            rw [← explodeLeafCheck_numScans hc] at h
            rw [heq]
            simp [h]
    all_goals
      exact ⟨fun _ => rfl, fun _ => rfl, fun isn2 h => by
        simp [theIndexScan] at h⟩
  all_goals
    exact ⟨fun _ => rfl, fun _ => rfl, fun isn2 h => by
      simp [theIndexScan] at h⟩

/-- A concrete index scan whose bounds carry the simple-range flag. -/
def isnC8 : IndexScanNode :=
  { indexKeyPattern := [("a", 1), ("b", 1)]
    bounds :=
      { fields := [⟨"a", [⟨1, 1, true, true⟩]⟩, ⟨"b", [⟨1, 2, true, true⟩]⟩]
        isSimpleRange := true }
    direction := 1
    maxScan := 0
    addKeyMetadata := false
    indexIsMultiKey := false }

/-- Witness for C8: a simple-range scan is refused and the tree comes
back untouched. -/
theorem C8_explode_frame_witness :
    theIndexScan (.ixscan isnC8) = some isnC8 ∧
    isnC8.bounds.isSimpleRange = true ∧
    (explodeForSort [("b", 1)] (.ixscan isnC8)).1 = false ∧
    (explodeForSort [("b", 1)] (.ixscan isnC8)).2 = .ixscan isnC8 := by
  have hfalse : (explodeForSort [("b", 1)] (.ixscan isnC8)).1 = false :=
    (((C8_explode_frame [("b", 1)] (.ixscan isnC8)).2.2 isnC8 rfl).1 rfl)
  exact ⟨rfl, rfl, hfalse, (C8_explode_frame [("b", 1)] (.ixscan isnC8)).1 hfalse⟩

/-! ## Admin hints (hint_commands.cpp) -/

/-- `AllowedIndexEntry`: the per-shape admin hint — owned copies of the
query/sort/projection documents and the allowed index key patterns. -/
structure AllowedIndexEntry where
  query : BSONDoc
  sort : BSONDoc
  projection : BSONDoc
  indexKeyPatterns : List BSONDoc
  deriving DecidableEq

/-- `QuerySettings`: the per-collection shape-key → allowed-indexes
map. -/
def QuerySettingsState := List (String × AllowedIndexEntry)

/-- The fields of the `planCacheClearHints` command document the
command reads: each of `query`, `sort`, `projection` is either absent
or a document. -/
structure ClearHintsCmd where
  query : Option BSONDoc
  sort : Option BSONDoc
  projection : Option BSONDoc

/-- Modelled from the spec: `PlanCacheCommand::canonicalize`
(plan_cache_commands.cpp, not among the sources) canonicalizes a
(query, sort, projection) triple into a shape-keyed CanonicalQuery or
fails with `BadValue`.  It is abstracted as a function to an optional
shape key; `ClearHints::clear` only consumes the key. -/
def CanonFn := BSONDoc → BSONDoc → BSONDoc → Option String

/-- `ClearHints::clear` (hint_commands.cpp): with a `query` field,
canonicalize and remove that one shape from the query settings and the
plan cache (the plan cache remove's status is ignored); without a
`query` field, fail with `BadValue` if `sort` or `projection` is
present, otherwise snapshot the hints, clear the query settings, and
remove each snapshot shape from the plan cache (re-canonicalization of
a stored entry cannot fail — `invariant(result.isOK())` — so a failing
`canonKey` there is unreachable and modelled as skipping the entry). -/
def clearHints (canonKey : CanonFn) (querySettings : QuerySettingsState)
    (planCache : PlanCacheState) (cmdObj : ClearHintsCmd) :
    Status × QuerySettingsState × PlanCacheState :=
  match cmdObj.query with
  | some q =>
    match canonKey q (cmdObj.sort.getD []) (cmdObj.projection.getD []) with
    | none => (.badValue, querySettings, planCache)
    | some key =>
      (.ok, mapErase key querySettings, (planCache.remove key).2)
  | none =>
    if cmdObj.sort.isSome || cmdObj.projection.isSome then
      (.badValue, querySettings, planCache)
    else
      let entries := querySettings
      let planCache' := entries.foldl
        (fun pc kv =>
          match canonKey kv.2.query kv.2.sort kv.2.projection with
          | some key => (pc.remove key).2
          | none => pc)
        planCache
      (.ok, [], planCache')

/-- C9: `planCacheClearHints` with `sort` or `projection` but no
`query` fails with `BadValue` and mutates neither the query settings
nor the plan cache; it clears all hints exactly when `query`, `sort`,
and `projection` are all absent; with a `query` it removes only that
one shape. -/
theorem C9_clearHints_guard (canonKey : CanonFn)
    (querySettings : QuerySettingsState) (planCache : PlanCacheState)
    (cmdObj : ClearHintsCmd) :
    (cmdObj.query = none → (cmdObj.sort.isSome ∨ cmdObj.projection.isSome) →
      clearHints canonKey querySettings planCache cmdObj =
        (.badValue, querySettings, planCache)) ∧
    (cmdObj.query = none → cmdObj.sort = none → cmdObj.projection = none →
      (clearHints canonKey querySettings planCache cmdObj).1 = .ok ∧
      (clearHints canonKey querySettings planCache cmdObj).2.1 = []) ∧
    (∀ q key, cmdObj.query = some q →
      canonKey q (cmdObj.sort.getD []) (cmdObj.projection.getD []) = some key →
      (clearHints canonKey querySettings planCache cmdObj).2.1 =
        mapErase key querySettings) := by
  refine ⟨?_, ?_, ?_⟩
  · intro hq hsp
    unfold clearHints
    rw [hq]
    have : (cmdObj.sort.isSome || cmdObj.projection.isSome) = true := by
      rcases hsp with h | h <;> simp [h]
    simp [this]
  · intro hq hs hp
    unfold clearHints
    rw [hq]
    simp [hs, hp]
  · intro q key hq hk
    unfold clearHints
    rw [hq]
    simp only []
    rw [hk]

/-- Witness for C9: `clearHints {sort: {a:1}}` (no query) on a
one-hint store fails with `BadValue` and leaves both stores intact. -/
theorem C9_clearHints_guard_witness :
    clearHints (fun _ _ _ => none)
        [("eqa", ⟨[("a", "1")], [], [], [[("a", "1")]]⟩)]
        PlanCacheState.empty
        { query := none, sort := some [("a", "1")], projection := none } =
      (.badValue, [("eqa", ⟨[("a", "1")], [], [], [[("a", "1")]]⟩)],
        PlanCacheState.empty) :=
  (C9_clearHints_guard (fun _ _ _ => none)
      [("eqa", ⟨[("a", "1")], [], [], [[("a", "1")]]⟩)]
      PlanCacheState.empty
      { query := none, sort := some [("a", "1")], projection := none }).1
    rfl (Or.inl rfl)

end MongoQuery
